import Mathlib

/-!
# Verification of the linked-list deque (`src/linkedDeque.js`)

The JavaScript source implements a double-ended queue over a doubly linked
list of `Node` objects.  We embed it shallowly:

* JS node objects live in a global heap, addressed by natural numbers
  (`Heap`); a JS reference-or-null is an `Option Nat`.  Object references in
  JS can never dangle (GC), and in the model addresses are never reused, so a
  missing address can only arise from a modelling error and is mapped to a
  distinguished error.
* A JS value stored in a node is `Option α`, `none` playing the role of
  `null` (the "absent" value of the sentinel node).
* JS exceptions become `Except String`: the range checks raise the
  `RangeError` message used by the source, and dereferencing `null`
  (`current.prev` when `current.prev` is `null`, etc.) raises a `TypeError`
  marker.  All `while (current !== null)` loops receive fuel
  (`heap size + 1`); under the structural invariant proved below every chain
  is acyclic and shorter than the heap, so the fuel is never exhausted
  (exhaustion is a distinguished error that provably does not occur).
* `_length` is an `Int`, as JS numbers are signed; the invariant proves it
  stays equal to the number of nodes, hence non-negative.
-/

namespace LinkedDeque

/-- `function Node(value=null)`: one linked-list cell. `val` is the stored JS
value (`none` = `null`), `prev`/`next` are node references (`none` = `null`). -/
structure Node (α : Type) where
  val : Option α
  prev : Option Nat
  next : Option Nat
deriving DecidableEq, Repr

/-- The global heap of allocated nodes. Index `a` into `mem` is the address of
a node; addresses are allocated in order and never reused or freed (JS GC is
unobservable). -/
structure Heap (α : Type) where
  mem : List (Node α)
deriving DecidableEq, Repr

/-- Read the node at address `a`, if allocated. -/
def Heap.get? (h : Heap α) (a : Nat) : Option (Node α) :=
  h.mem[a]?

/-- Overwrite the node at address `a` (a JS field assignment writes the whole
updated record back). -/
def Heap.set (h : Heap α) (a : Nat) (nd : Node α) : Heap α :=
  ⟨h.mem.set a nd⟩

/-- `new Node(...)`: allocate a fresh node, returning the new heap and the
fresh address. -/
def Heap.alloc (h : Heap α) (nd : Node α) : Heap α × Nat :=
  (⟨h.mem ++ [nd]⟩, h.mem.length)

/-- Dereference a JS node reference: `null` raises a `TypeError`, as in JS;
an unallocated address cannot arise from the modelled source. -/
def Heap.read (h : Heap α) : Option Nat → Except String (Nat × Node α)
  | none => .error "TypeError: null dereference"
  | some a =>
    match h.get? a with
    | none => .error "InvalidAddress"
    | some nd => .ok (a, nd)

/-- The `Deque` object: `head`/`tail` node references and the `_length`
field. -/
structure Deque where
  head : Option Nat
  tail : Option Nat
  _length : Int
deriving DecidableEq, Repr

/-- The message thrown by the source's range checks:
`throw new RangeError("Index is out of bounds.")`. -/
def rangeErrorMsg : String := "RangeError: Index is out of bounds."

/-- Fuel exhaustion marker for the modelled `while` loops; provably
unreachable from invariant-satisfying states. -/
def outOfFuelMsg : String := "OutOfFuel"

/-- `new Deque()` without an iterable: allocate the sentinel node and point
`head` and `tail` at it. -/
def mkDeque (h : Heap α) : Heap α × Deque :=
  let (h1, a) := h.alloc ⟨none, none, none⟩
  (h1, ⟨some a, some a, 0⟩)

/-- `Deque.prototype.push`. -/
def push (h : Heap α) (d : Deque) (value : Option α) :
    Except String (Heap α × Deque) :=
  if d._length = 0 then do
    -- this.tail.val = value
    let (t, tnd) ← h.read d.tail
    .ok (h.set t { tnd with val := value }, { d with _length := d._length + 1 })
  else do
    -- const newNode = new Node(value); newNode.prev = this.tail;
    let (h1, a) := h.alloc ⟨value, d.tail, none⟩
    -- this.tail.next = newNode
    let (t, tnd) ← h1.read d.tail
    let h2 := h1.set t { tnd with next := some a }
    -- this.tail = newNode
    .ok (h2, { d with tail := some a, _length := d._length + 1 })

/-- `Deque.prototype.pushLeft`. -/
def pushLeft (h : Heap α) (d : Deque) (value : Option α) :
    Except String (Heap α × Deque) :=
  if d._length = 0 then do
    let (hd, hnd) ← h.read d.head
    .ok (h.set hd { hnd with val := value }, { d with _length := d._length + 1 })
  else do
    let (h1, a) := h.alloc ⟨value, none, d.head⟩
    let (hd, hnd) ← h1.read d.head
    let h2 := h1.set hd { hnd with prev := some a }
    .ok (h2, { d with head := some a, _length := d._length + 1 })

/-- `Deque.prototype.getHead`: `return this.head.val`. -/
def getHead (h : Heap α) (d : Deque) : Except String (Option α) := do
  let (_, hnd) ← h.read d.head
  .ok hnd.val

/-- `Deque.prototype.getTail`: `return this.tail.val`. -/
def getTail (h : Heap α) (d : Deque) : Except String (Option α) := do
  let (_, tnd) ← h.read d.tail
  .ok tnd.val

/-- `Deque.prototype.pop`.  Returns the popped value together with the new
state. -/
def pop (h : Heap α) (d : Deque) :
    Except String (Option α × Heap α × Deque) :=
  if d._length = 0 then .ok (none, h, d)
  else if d._length = 1 then do
    let (a, nd) ← h.read d.head
    .ok (nd.val, h.set a { nd with val := none }, { d with _length := d._length - 1 })
  else do
    -- const lastElement = this.tail; this.tail = this.tail.prev;
    let (_, tnd) ← h.read d.tail
    -- this.tail.next = null   (dereferences the new tail)
    let (p, pnd) ← h.read tnd.prev
    .ok (tnd.val, h.set p { pnd with next := none },
         { d with tail := tnd.prev, _length := d._length - 1 })

/-- `Deque.prototype.popleft`. -/
def popleft (h : Heap α) (d : Deque) :
    Except String (Option α × Heap α × Deque) :=
  if d._length = 0 then .ok (none, h, d)
  else if d._length = 1 then do
    let (a, nd) ← h.read d.head
    .ok (nd.val, h.set a { nd with val := none }, { d with _length := d._length - 1 })
  else do
    let (_, hnd) ← h.read d.head
    let (n, nnd) ← h.read hnd.next
    .ok (hnd.val, h.set n { nnd with prev := none },
         { d with head := hnd.next, _length := d._length - 1 })

/-- The `while` loop of `Deque.prototype.at`: `current` starts at `head` or
`tail` and moves by `next` or `prev` (`pastMid`), the counter moving by
`+1`/`-1`, until it equals `index`.  Falling out of the loop returns JS
`undefined`, modelled as `.ok none` (provably unreachable in range). -/
def atLoop (h : Heap α) (index : Int) (pastMid : Bool) :
    Option Nat → Int → Nat → Except String (Option α)
  | none, _, _ => .ok none
  | some _, _, 0 => .error outOfFuelMsg
  | some a, curIdx, fuel + 1 =>
    match h.get? a with
    | none => .error "InvalidAddress"
    | some nd =>
      if curIdx = index then .ok nd.val
      else atLoop h index pastMid (if pastMid then nd.prev else nd.next)
        (curIdx + if pastMid then -1 else 1) fuel

/-- `Deque.prototype.at`. -/
def «at» (h : Heap α) (d : Deque) (index : Int) : Except String (Option α) :=
  if index ≥ d._length ∨ index < 0 then .error rangeErrorMsg
  else
    let pastMid := index > d._length / 2
    atLoop h index pastMid (if pastMid then d.tail else d.head)
      (if pastMid then d._length - 1 else 0) (h.mem.length + 1)

/-- The `while` loop of `Deque.prototype.insertAt`: skip until the counter
equals `index`, then splice `newAddr` in immediately before `current`.
Falling out of the loop is the source's trailing `return false`. -/
def insertAtLoop (h : Heap α) (d : Deque) (newAddr : Nat) (index : Int)
    (pastMid : Bool) :
    Option Nat → Int → Nat → Except String (Bool × Heap α × Deque)
  | none, _, _ => .ok (false, h, d)
  | some _, _, 0 => .error outOfFuelMsg
  | some a, curIdx, fuel + 1 =>
    match h.get? a with
    | none => .error "InvalidAddress"
    | some nd =>
      if curIdx ≠ index then
        insertAtLoop h d newAddr index pastMid
          (if pastMid then nd.prev else nd.next)
          (curIdx + if pastMid then -1 else 1) fuel
      else do
        -- const prev = current.prev; prev.next = newNode;
        let (p, pnd) ← h.read nd.prev
        let h1 := h.set p { pnd with next := some newAddr }
        -- newNode.prev = prev; newNode.next = current;
        let (_, nnd) ← h1.read (some newAddr)
        let h2 := h1.set newAddr { nnd with prev := some p, next := some a }
        -- current.prev = newNode;
        let (_, cnd) ← h2.read (some a)
        let h3 := h2.set a { cnd with prev := some newAddr }
        .ok (true, h3, { d with _length := d._length + 1 })

/-- `Deque.prototype.insertAt`. -/
def insertAt (h : Heap α) (d : Deque) (value : Option α) (index : Int) :
    Except String (Bool × Heap α × Deque) :=
  if index < 0 ∨ index ≥ d._length then .error rangeErrorMsg
  else if index = 0 then do
    let (h1, d1) ← pushLeft h d value
    .ok (true, h1, d1)
  else
    let pastMid := index > d._length / 2
    -- const newNode = new Node(value);  (allocated before the loop)
    let (h1, a) := h.alloc ⟨value, none, none⟩
    insertAtLoop h1 d a index pastMid
      (if pastMid then d.tail else d.head)
      (if pastMid then d._length - 1 else 0) (h1.mem.length + 1)

/-- The `while` loop of `Deque.prototype.removeAt`: skip until the counter
equals `index`, then unlink `current`.  Falling out of the loop returns JS
`undefined`, modelled as value `none` with the state unchanged. -/
def removeAtLoop (h : Heap α) (d : Deque) (index : Int) (pastMid : Bool) :
    Option Nat → Int → Nat → Except String (Option α × Heap α × Deque)
  | none, _, _ => .ok (none, h, d)
  | some _, _, 0 => .error outOfFuelMsg
  | some a, curIdx, fuel + 1 =>
    match h.get? a with
    | none => .error "InvalidAddress"
    | some nd =>
      if curIdx ≠ index then
        removeAtLoop h d index pastMid
          (if pastMid then nd.prev else nd.next)
          (curIdx + if pastMid then -1 else 1) fuel
      else do
        -- const prev = current.prev; const next = current.next;
        -- prev.next = next;
        let (p, pnd) ← h.read nd.prev
        let h1 := h.set p { pnd with next := nd.next }
        -- next.prev = prev;
        let (n, nnd) ← h1.read nd.next
        let h2 := h1.set n { nnd with prev := nd.prev }
        .ok (nd.val, h2, { d with _length := d._length - 1 })

/-- `Deque.prototype.removeAt`. -/
def removeAt (h : Heap α) (d : Deque) (index : Int) :
    Except String (Option α × Heap α × Deque) :=
  if index < 0 ∨ index ≥ d._length then .error rangeErrorMsg
  else if index = 0 then popleft h d
  else if index = d._length - 1 then pop h d
  else
    let pastMid := index > d._length / 2
    removeAtLoop h d index pastMid
      (if pastMid then d.tail else d.head)
      (if pastMid then d._length - 1 else 0) (h.mem.length + 1)

/-- The `while` loop of `Deque.prototype.reverse`: walk from the (swapped)
tail along the original `next` links, swapping each node's `prev`/`next`. -/
def reverseLoop (h : Heap α) (d : Deque) :
    Option Nat → Nat → Except String (Heap α × Deque)
  | none, _ => .ok (h, d)
  | some _, 0 => .error outOfFuelMsg
  | some a, fuel + 1 =>
    match h.get? a with
    | none => .error "InvalidAddress"
    | some nd =>
      reverseLoop (h.set a { nd with prev := nd.next, next := nd.prev }) d
        nd.next fuel

/-- `Deque.prototype.reverse`: swap `head`/`tail`, then run the loop from the
new `tail` (the old head). -/
def reverse (h : Heap α) (d : Deque) : Except String (Heap α × Deque) :=
  let d1 : Deque := { d with head := d.tail, tail := d.head }
  reverseLoop h d1 d1.tail (h.mem.length + 1)

/-- `Deque.prototype.optimizeSteps`.  JS `%` truncates toward zero, which is
`Int.tmod`.  (For `length == 0` JS produces `NaN`; see `rotate`.) -/
def optimizeSteps (steps : Int) (len : Int) : Int :=
  let s := steps.tmod len
  if |s| > len / 2 then
    if s > 0 then s - len else s + len
  else s

/-- The positive-steps loop of `rotate`: `this.pushLeft(this.pop())`,
repeated. -/
def rotateRightLoop (h : Heap α) (d : Deque) :
    Nat → Except String (Heap α × Deque)
  | 0 => .ok (h, d)
  | n + 1 => do
    let (v, h1, d1) ← pop h d
    let (h2, d2) ← pushLeft h1 d1 v
    rotateRightLoop h2 d2 n

/-- The negative-steps loop of `rotate`: `this.push(this.popleft())`,
repeated. -/
def rotateLeftLoop (h : Heap α) (d : Deque) :
    Nat → Except String (Heap α × Deque)
  | 0 => .ok (h, d)
  | n + 1 => do
    let (v, h1, d1) ← popleft h d
    let (h2, d2) ← push h1 d1 v
    rotateLeftLoop h2 d2 n

/-- `Deque.prototype.rotate`.  On an empty deque JS computes
`steps % 0 = NaN`; then `Math.abs(NaN) > 0` is `false`, `NaN > 0` is `false`
and the `else` loop bound `Math.abs(NaN)` admits no iteration, so the call is
a no-op.  `Int` has no `NaN`, so that arithmetic fact is modelled by the
explicit length-zero branch. -/
def rotate (h : Heap α) (d : Deque) (steps : Int := 1) :
    Except String (Heap α × Deque) :=
  if steps = 0 then .ok (h, d)
  else if d._length = 0 then .ok (h, d)
  else
    let s := optimizeSteps steps d._length
    if s > 0 then rotateRightLoop h d s.toNat
    else rotateLeftLoop h d (-s).toNat

/-- The `while` loop of `Deque.prototype.copy`: `newDeque.push(current.val);
current = current.next` — `current.next` is read after the push, so the node
is re-read from the updated heap. -/
def copyLoop (h : Heap α) (newD : Deque) :
    Option Nat → Nat → Except String (Heap α × Deque)
  | none, _ => .ok (h, newD)
  | some _, 0 => .error outOfFuelMsg
  | some a, fuel + 1 =>
    match h.get? a with
    | none => .error "InvalidAddress"
    | some nd => do
      let (h1, d1) ← push h newD nd.val
      match h1.get? a with
      | none => .error "InvalidAddress"
      | some nd1 => copyLoop h1 d1 nd1.next fuel

/-- `Deque.prototype.copy`: returns the heap (now holding the new nodes) and
the new deque; the original `Deque` record is untouched. -/
def copy (h : Heap α) (d : Deque) : Except String (Heap α × Deque) :=
  if d._length = 0 then .ok (mkDeque h)
  else
    let (h1, nd) := mkDeque h
    copyLoop h1 nd d.head (h1.mem.length + 1)

/-- `Deque.prototype.clear`: `this.head.val = null; this.head.next = null;
this.tail = this.head; this._length = 0;` — note `head.prev` is not
touched. -/
def clear (h : Heap α) (d : Deque) : Except String (Heap α × Deque) := do
  let (a, nd) ← h.read d.head
  .ok (h.set a { nd with val := none, next := none },
       { d with tail := d.head, _length := 0 })

/-- The `while` loop of `Deque.prototype.toArray`. -/
def toArrayLoop (h : Heap α) :
    Option Nat → Nat → Except String (List (Option α))
  | none, _ => .ok []
  | some _, 0 => .error outOfFuelMsg
  | some a, fuel + 1 =>
    match h.get? a with
    | none => .error "InvalidAddress"
    | some nd => do
      let rest ← toArrayLoop h nd.next fuel
      .ok (nd.val :: rest)

/-- `Deque.prototype.toArray`. -/
def toArray (h : Heap α) (d : Deque) : Except String (List (Option α)) :=
  if d._length = 0 then .ok []
  else toArrayLoop h d.head (h.mem.length + 1)

/-- One step of the object returned by `Deque.prototype[Symbol.iterator]`.
The closure captures `current` (the iteration state).  Its `next` method
tests `current === null || this._length === 0`; but inside `next`, `this` is
the iterator object, which has no `_length` property, so `this._length` is
`undefined` and `undefined === 0` is `false` — the second disjunct is dead
code and only `current === null` decides termination.  Returns `none` for
`{done: true}`, and `some (value, newCurrent)` otherwise. -/
def iterNext (h : Heap α) : Option Nat → Option ((Option α) × Option Nat)
  | none => none
  | some a =>
    match h.get? a with
    | none => none
    | some nd => some (nd.val, nd.next)

/-- Drain the iterator produced by `Symbol.iterator` (whose initial state is
`current = this.head`), collecting every value yielded before `done`. -/
def iterDrain (h : Heap α) : Option Nat → Nat → List (Option α)
  | _, 0 => []
  | cur, fuel + 1 =>
    match iterNext h cur with
    | none => []
    | some (v, cur') => v :: iterDrain h cur' fuel

/-- All elements yielded by `for (const x of deque)`. -/
def iterate (h : Heap α) (d : Deque) : List (Option α) :=
  iterDrain h d.head (h.mem.length + 1)

/-- `new Deque(iterable)` with a list of initial elements: the constructor
pushes each element in order. -/
def pushAll (h : Heap α) (d : Deque) :
    List (Option α) → Except String (Heap α × Deque)
  | [] => .ok (h, d)
  | v :: rest => do
    let (h1, d1) ← push h d v
    pushAll h1 d1 rest

/-- `new Deque(iterable)`: allocate the sentinel, then push every element. -/
def dequeOfList (h : Heap α) (l : List (Option α)) :
    Except String (Heap α × Deque) :=
  let (h1, d1) := mkDeque h
  pushAll h1 d1 l

/-! ## The representation predicate

`chainSeg h p addrs n` says the addresses `addrs` form a doubly linked
segment in heap `h`: consecutive addresses are linked by `next` forward and
by `prev` backward, the first node's `prev` is `p`, and the last node's
`next` is `n`.  A whole list is `chainSeg h none addrs none`: following
`next` from the first address visits exactly `addrs` ending at the last, and
following `prev` from the last visits them in reverse ending at the first. -/

def chainSeg (h : Heap α) : Option Nat → List Nat → Option Nat → Prop
  | _, [], _ => True
  | p, a :: rest, n =>
    ∃ nd, h.get? a = some nd ∧ nd.prev = p ∧ nd.next = rest.head?.or n ∧
      chainSeg h (some a) rest n

@[simp] theorem chainSeg_nil {h : Heap α} {p n : Option Nat} :
    chainSeg h p [] n := trivial

@[simp] theorem chainSeg_cons {h : Heap α} {p n : Option Nat} {a : Nat}
    {rest : List Nat} :
    chainSeg h p (a :: rest) n ↔
      ∃ nd, h.get? a = some nd ∧ nd.prev = p ∧ nd.next = rest.head?.or n ∧
        chainSeg h (some a) rest n := Iff.rfl

theorem chainSeg_singleton {h : Heap α} {p n : Option Nat} {a : Nat} :
    chainSeg h p [a] n ↔
      ∃ nd, h.get? a = some nd ∧ nd.prev = p ∧ nd.next = n := by
  simp [chainSeg]

/-- Splitting / merging a doubly linked segment at an interior boundary. -/
theorem chainSeg_append {h : Heap α} (xs : List Nat) {ys : List Nat}
    {p n : Option Nat} :
    chainSeg h p (xs ++ ys) n ↔
      chainSeg h p xs (ys.head?.or n) ∧ chainSeg h (xs.getLast?.or p) ys n := by
  induction xs generalizing p with
  | nil => simp
  | cons a xs ih =>
    simp only [List.cons_append, chainSeg_cons, ih]
    constructor
    · rintro ⟨nd, hget, hprev, hnext, h1, h2⟩
      refine ⟨⟨nd, hget, hprev, ?_, h1⟩, ?_⟩
      · cases xs <;> simp_all [List.head?_append]
      · cases xs with
        | nil => simpa using h2
        | cons b xs' => simpa [List.getLast?_cons_cons] using h2
    · rintro ⟨⟨nd, hget, hprev, hnext, h1⟩, h2⟩
      refine ⟨nd, hget, hprev, ?_, h1, ?_⟩
      · cases xs <;> simp_all [List.head?_append]
      · cases xs with
        | nil => simpa using h2
        | cons b xs' => simpa [List.getLast?_cons_cons] using h2

/-- A segment only constrains the heap at its member addresses. -/
theorem chainSeg_mono {h h' : Heap α} {p n : Option Nat} {addrs : List Nat}
    (hag : ∀ a ∈ addrs, h'.get? a = h.get? a) :
    chainSeg h p addrs n → chainSeg h' p addrs n := by
  induction addrs generalizing p with
  | nil => intro; trivial
  | cons a rest ih =>
    rintro ⟨nd, hget, hprev, hnext, hrest⟩
    exact ⟨nd, (hag a (by simp)).trans hget, hprev, hnext,
      ih (fun b hb => hag b (by simp [hb])) hrest⟩

/-- Every member of a segment is an allocated node. -/
theorem chainSeg_get {h : Heap α} {p n : Option Nat} {addrs : List Nat}
    (hc : chainSeg h p addrs n) {a : Nat} (ha : a ∈ addrs) :
    ∃ nd, h.get? a = some nd := by
  induction addrs generalizing p with
  | nil => cases ha
  | cons b rest ih =>
    obtain ⟨nd, hget, -, -, hrest⟩ := hc
    rcases List.mem_cons.mp ha with rfl | ha'
    · exact ⟨nd, hget⟩
    · exact ih hrest ha'

/-- The value field of the node at `a` (`none` if unallocated; chain members
are always allocated). -/
def nodeVal (h : Heap α) (a : Nat) : Option α :=
  match h.get? a with
  | none => none
  | some nd => nd.val

/-- The representation predicate tying a `Deque` record to the list of
addresses of its nodes.  When `_length = 0`, `addrs` is the one sentinel
node, which holds no value; its `prev`/`next` are `none` by `chain`. -/
structure ReprA (h : Heap α) (d : Deque) (addrs : List Nat) : Prop where
  ne : addrs ≠ []
  hd : d.head = addrs.head?
  tl : d.tail = addrs.getLast?
  nodup : addrs.Nodup
  chain : chainSeg h none addrs none
  len : (d._length = 0 ∧ addrs.length = 1 ∧ ∀ a ∈ addrs, nodeVal h a = none)
      ∨ (0 < d._length ∧ d._length = (addrs.length : Int))

/-- The structural invariant: some address list represents the deque. -/
def Inv (h : Heap α) (d : Deque) : Prop := ∃ addrs, ReprA h d addrs

/-- The element sequence represented: empty when `_length = 0`, otherwise the
values along the chain. -/
def absL (h : Heap α) (d : Deque) (addrs : List Nat) : List (Option α) :=
  if d._length = 0 then [] else addrs.map (nodeVal h)

/-- The deque represents the element list `l`. -/
def Rep (h : Heap α) (d : Deque) (l : List (Option α)) : Prop :=
  ∃ addrs, ReprA h d addrs ∧ l = absL h d addrs

/-- Footprint discipline of one operation: the heap only grows, nodes outside
the operation's footprint `addrs` are untouched, and the new footprint
consists of old or freshly allocated addresses. -/
structure Footprint (h : Heap α) (addrs : List Nat) (h' : Heap α)
    (addrs' : List Nat) : Prop where
  ext : h.mem.length ≤ h'.mem.length
  frame : ∀ a, a ∉ addrs → a < h.mem.length → h'.get? a = h.get? a
  sub : ∀ a ∈ addrs', a ∈ addrs ∨ h.mem.length ≤ a

/-! ### Heap access lemmas -/

theorem Heap.lt_of_get? {h : Heap α} {a : Nat} {nd : Node α}
    (hget : h.get? a = some nd) : a < h.mem.length := by
  simpa using (List.getElem?_eq_some_iff.mp hget).1

@[simp] theorem Heap.get?_set_self {h : Heap α} {a : Nat} {nd nd' : Node α}
    (ha : h.get? a = some nd') : (h.set a nd).get? a = some nd := by
  have := Heap.lt_of_get? ha
  simp [Heap.get?, Heap.set, List.getElem?_set, this]

theorem Heap.get?_set_ne {h : Heap α} {a b : Nat} (nd : Node α)
    (hne : a ≠ b) : (h.set a nd).get? b = h.get? b := by
  simp [Heap.get?, Heap.set, List.getElem?_set_ne hne]

@[simp] theorem Heap.length_set {h : Heap α} {a : Nat} {nd : Node α} :
    (h.set a nd).mem.length = h.mem.length := by
  simp [Heap.set]

theorem Heap.get?_alloc_lt {h : Heap α} {nd : Node α} {a : Nat}
    (ha : a < h.mem.length) : (h.alloc nd).1.get? a = h.get? a := by
  simp [Heap.get?, Heap.alloc, List.getElem?_append_left ha]

@[simp] theorem Heap.get?_alloc_new {h : Heap α} {nd : Node α} :
    (h.alloc nd).1.get? (h.alloc nd).2 = some nd := by
  simp [Heap.get?, Heap.alloc]

@[simp] theorem Heap.length_alloc {h : Heap α} {nd : Node α} :
    (h.alloc nd).1.mem.length = h.mem.length + 1 := by
  simp [Heap.alloc]

theorem ReprA.valid {h : Heap α} {d : Deque} {addrs : List Nat}
    (hr : ReprA h d addrs) : ∀ a ∈ addrs, a < h.mem.length := by
  intro a ha
  obtain ⟨nd, hnd⟩ := chainSeg_get hr.chain ha
  exact Heap.lt_of_get? hnd

theorem ReprA.len_nonneg {h : Heap α} {d : Deque} {addrs : List Nat}
    (hr : ReprA h d addrs) : 0 ≤ d._length := by
  rcases hr.len with ⟨h0, -⟩ | ⟨hpos, -⟩
  · exact h0.ge
  · exact hpos.le

theorem absL_length {h : Heap α} {d : Deque} {addrs : List Nat}
    (hr : ReprA h d addrs) :
    ((absL h d addrs).length : Int) = d._length := by
  rcases hr.len with ⟨h0, -, -⟩ | ⟨hpos, hlen⟩
  · simp [absL, h0]
  · rw [absL, if_neg (by omega)]
    simp [hlen]

theorem Footprint.refl (h : Heap α) (addrs : List Nat) :
    Footprint h addrs h addrs :=
  ⟨le_rfl, fun _ _ _ => rfl, fun _ ha => Or.inl ha⟩

theorem Footprint.trans {h h' h'' : Heap α} {A A' A'' : List Nat}
    (f1 : Footprint h A h' A') (f2 : Footprint h' A' h'' A'') :
    Footprint h A h'' A'' := by
  refine ⟨f1.ext.trans f2.ext, ?_, ?_⟩
  · intro a haA halt
    have haA' : a ∉ A' := by
      intro ha'
      rcases f1.sub a ha' with h1 | h1
      · exact haA h1
      · omega
    rw [f2.frame a haA' (lt_of_lt_of_le halt f1.ext), f1.frame a haA halt]
  · intro a ha
    rcases f2.sub a ha with h1 | h1
    · rcases f1.sub a h1 with h2 | h2
      · exact Or.inl h2
      · exact Or.inr h2
    · exact Or.inr (le_trans f1.ext h1)

theorem nodeVal_congr {h h' : Heap α} {a : Nat}
    (hag : h'.get? a = h.get? a) : nodeVal h' a = nodeVal h a := by
  simp [nodeVal, hag]

theorem map_nodeVal_congr {h h' : Heap α} {addrs : List Nat}
    (hag : ∀ a ∈ addrs, h'.get? a = h.get? a) :
    addrs.map (nodeVal h') = addrs.map (nodeVal h) :=
  List.map_congr_left fun a ha => nodeVal_congr (hag a ha)

/-- `ReprA` only depends on the heap at the member addresses. -/
theorem ReprA.mono {h h' : Heap α} {d : Deque} {addrs : List Nat}
    (hr : ReprA h d addrs)
    (hag : ∀ a ∈ addrs, h'.get? a = h.get? a) : ReprA h' d addrs := by
  refine ⟨hr.ne, hr.hd, hr.tl, hr.nodup, chainSeg_mono hag hr.chain, ?_⟩
  rcases hr.len with ⟨h0, h1, hv⟩ | hR
  · exact Or.inl ⟨h0, h1, fun a ha => (nodeVal_congr (hag a ha)).trans (hv a ha)⟩
  · exact Or.inr hR

theorem absL_mono {h h' : Heap α} {d : Deque} {addrs : List Nat}
    (hag : ∀ a ∈ addrs, h'.get? a = h.get? a) :
    absL h' d addrs = absL h d addrs := by
  unfold absL
  split
  · rfl
  · exact map_nodeVal_congr hag

/-- A deque survives an operation on a disjoint footprint. -/
theorem ReprA.frame {h h' : Heap α} {d : Deque} {addrs B B' : List Nat}
    (hr : ReprA h d addrs) (fp : Footprint h B h' B')
    (hdisj : ∀ a ∈ addrs, a ∉ B) : ReprA h' d addrs :=
  hr.mono fun a ha => fp.frame a (hdisj a ha) (hr.valid a ha)

theorem absL_frame {h h' : Heap α} {d : Deque} {addrs B B' : List Nat}
    (hr : ReprA h d addrs) (fp : Footprint h B h' B')
    (hdisj : ∀ a ∈ addrs, a ∉ B) :
    absL h' d addrs = absL h d addrs :=
  absL_mono fun a ha => fp.frame a (hdisj a ha) (hr.valid a ha)

@[simp] theorem ok_bind {ε β γ : Type} (a : β) (f : β → Except ε γ) :
    (Except.ok a : Except ε β) >>= f = f a := rfl

@[simp] theorem error_bind {ε β γ : Type} (e : ε) (f : β → Except ε γ) :
    (Except.error e : Except ε β) >>= f = .error e := rfl

/-! ### Specifications of the end operations -/

theorem push_spec {h : Heap α} {d : Deque} {addrs : List Nat}
    (hr : ReprA h d addrs) (v : Option α) :
    ∃ h' d' addrs', push h d v = .ok (h', d') ∧ ReprA h' d' addrs' ∧
      absL h' d' addrs' = absL h d addrs ++ [v] ∧
      Footprint h addrs h' addrs' := by
  by_cases h0 : d._length = 0
  · -- reuse the sentinel's value slot
    obtain ⟨-, hlen1, hvals⟩ | ⟨hpos, -⟩ := hr.len
    swap; · omega
    obtain ⟨s, rfl⟩ := List.length_eq_one.mp hlen1
    obtain ⟨nd, hget, hprev, hnext⟩ := chainSeg_singleton.mp hr.chain
    have htail : d.tail = some s := by simpa using hr.tl
    refine ⟨h.set s { nd with val := v }, { d with _length := d._length + 1 },
      [s], ?_, ?_, ?_, ?_⟩
    · simp [push, h0, htail, Heap.read, hget]
    · refine ⟨by simp, by simpa using hr.hd, by simpa using hr.tl, hr.nodup,
        ?_, ?_⟩
      · exact chainSeg_singleton.mpr
          ⟨_, Heap.get?_set_self hget, by simpa using hprev, by simpa using hnext⟩
      · exact Or.inr ⟨by show (0:Int) < d._length + 1; omega, by simp [h0]⟩
    · simp [absL, h0, nodeVal, Heap.get?_set_self hget]
    · refine ⟨le_of_eq Heap.length_set.symm, ?_, ?_⟩
      · intro a ha _
        refine Heap.get?_set_ne _ fun hsa => ?_
        simp [hsa] at ha
      · simp
  · -- allocate a new tail node
    obtain ⟨h0', -⟩ | ⟨hpos, hlen⟩ := hr.len
    · exact absurd h0' h0
    obtain rfl | ⟨xs, t, rfl⟩ := List.eq_nil_or_concat' addrs
    · exact absurd rfl hr.ne
    have htail : d.tail = some t := by simpa [List.getLast?_concat] using hr.tl
    obtain ⟨hchainxs, hchaint⟩ := (chainSeg_append xs).mp hr.chain
    obtain ⟨tnd, hgett, hprevt, hnextt⟩ := chainSeg_singleton.mp hchaint
    have htlt : t < h.mem.length := hr.valid t (by simp)
    have htnotxs : t ∉ xs := by
      have := hr.nodup
      simp [List.nodup_append] at this
      tauto
    set a := h.mem.length with ha_def
    have hfresh : ∀ b ∈ xs ++ [t], b ≠ a := by
      intro b hb
      have := hr.valid b hb
      omega
    set h1 := (h.alloc ⟨v, d.tail, none⟩).1 with h1_def
    have hget1t : h1.get? t = some tnd := by
      rw [h1_def, Heap.get?_alloc_lt htlt]; exact hgett
    have h1_lit : h1 = ⟨h.mem ++ [(⟨v, some t, none⟩ : Node α)]⟩ := by
      rw [h1_def, htail]; rfl
    have hget1a : h1.get? a = some ⟨v, some t, none⟩ := by
      rw [h1_lit, ha_def]
      simp [Heap.get?]
    set h2 := h1.set t { tnd with next := some a } with h2_def
    have hag : ∀ b ∈ xs, h2.get? b = h.get? b := by
      intro b hb
      rw [h2_def, Heap.get?_set_ne _ (by rintro rfl; exact htnotxs hb),
        h1_def, Heap.get?_alloc_lt (hr.valid b (by simp [hb]))]
    refine ⟨h2, { d with tail := some a, _length := d._length + 1 },
      (xs ++ [t]) ++ [a], ?_, ?_, ?_, ?_⟩
    · have hget1t' : Heap.get? ⟨h.mem ++ [(⟨v, some t, none⟩ : Node α)]⟩ t = some tnd := by
        rw [← h1_lit]; exact hget1t
      simp [push, h0, htail, Heap.read, Heap.alloc, hget1t', h2_def, h1_lit, ha_def]
    · refine ⟨by simp, ?_, by simp [List.getLast?_concat], ?_, ?_, ?_⟩
      · rw [hr.hd]
        cases xs <;> simp
      · have hnd := hr.nodup
        simp only [List.nodup_append] at hnd ⊢
        refine ⟨hnd, by simp, ?_⟩
        intro b hb
        simp only [List.mem_singleton]
        exact hfresh b hb
      · rw [chainSeg_append (xs ++ [t])]
        refine ⟨?_, ?_⟩
        · rw [chainSeg_append xs]
          refine ⟨chainSeg_mono hag hchainxs, ?_⟩
          refine chainSeg_singleton.mpr ⟨{ tnd with next := some a }, ?_, ?_, ?_⟩
          · rw [h2_def]; exact Heap.get?_set_self hget1t
          · simpa using hprevt
          · simp
        · refine chainSeg_singleton.mpr ⟨⟨v, some t, none⟩, ?_, ?_, rfl⟩
          · rw [h2_def, Heap.get?_set_ne _ (by omega)]
            exact hget1a
          · simp [List.getLast?_concat]
      · refine Or.inr ⟨by show (0:Int) < d._length + 1; omega, ?_⟩
        show d._length + 1 = _
        have hL : ((xs ++ [t]) ++ [a]).length = (xs ++ [t]).length + 1 := by simp
        rw [hlen, hL]
        push_cast
        ring
    · have hvalt : nodeVal h2 t = nodeVal h t := by
        simp [nodeVal, h2_def, Heap.get?_set_self hget1t, hgett]
      have hvala : nodeVal h2 a = v := by
        simp only [nodeVal, h2_def]
        rw [Heap.get?_set_ne _ (by omega), hget1a]
      simp only [absL]
      rw [if_neg (by show ¬(d._length + 1 = 0); omega), if_neg h0]
      rw [List.map_append, List.map_append, List.map_append]
      congr 1
      · congr 1
        · exact map_nodeVal_congr hag
        · simp [hvalt]
      · simp [hvala]
    · refine ⟨by simp [h2_def, h1_def], ?_, ?_⟩
      · intro b hb hblt
        rw [h2_def, Heap.get?_set_ne _ (by rintro rfl; exact hb (by simp)),
          h1_def, Heap.get?_alloc_lt hblt]
      · intro b hb
        simp only [List.mem_append, List.mem_singleton] at hb
        rcases hb with hb | rfl
        · exact Or.inl (by simpa using hb)
        · exact Or.inr le_rfl

theorem pushLeft_spec {h : Heap α} {d : Deque} {addrs : List Nat}
    (hr : ReprA h d addrs) (v : Option α) :
    ∃ h' d' addrs', pushLeft h d v = .ok (h', d') ∧ ReprA h' d' addrs' ∧
      absL h' d' addrs' = v :: absL h d addrs ∧
      Footprint h addrs h' addrs' := by
  by_cases h0 : d._length = 0
  · -- reuse the sentinel's value slot
    obtain ⟨-, hlen1, hvals⟩ | ⟨hpos, -⟩ := hr.len
    swap; · omega
    obtain ⟨s, rfl⟩ := List.length_eq_one.mp hlen1
    obtain ⟨nd, hget, hprev, hnext⟩ := chainSeg_singleton.mp hr.chain
    have hhead : d.head = some s := by simpa using hr.hd
    refine ⟨h.set s { nd with val := v }, { d with _length := d._length + 1 },
      [s], ?_, ?_, ?_, ?_⟩
    · simp [pushLeft, h0, hhead, Heap.read, hget]
    · refine ⟨by simp, by simpa using hr.hd, by simpa using hr.tl, hr.nodup,
        ?_, ?_⟩
      · exact chainSeg_singleton.mpr
          ⟨_, Heap.get?_set_self hget, by simpa using hprev, by simpa using hnext⟩
      · exact Or.inr ⟨by show (0:Int) < d._length + 1; omega, by simp [h0]⟩
    · simp [absL, h0, nodeVal, Heap.get?_set_self hget]
    · refine ⟨le_of_eq Heap.length_set.symm, ?_, ?_⟩
      · intro a ha _
        refine Heap.get?_set_ne _ fun hsa => ?_
        simp [hsa] at ha
      · simp
  · -- allocate a new head node
    obtain ⟨h0', -⟩ | ⟨hpos, hlen⟩ := hr.len
    · exact absurd h0' h0
    obtain ⟨f, rest, rfl⟩ := List.exists_cons_of_ne_nil hr.ne
    have hhead : d.head = some f := by simpa using hr.hd
    obtain ⟨fnd, hgetf, hprevf, hnextf, hchainr⟩ := hr.chain
    have hflt : f < h.mem.length := hr.valid f (by simp)
    have hfnotr : f ∉ rest := by
      have := hr.nodup
      simp at this
      tauto
    set a := h.mem.length with ha_def
    set h1 := (h.alloc ⟨v, none, d.head⟩).1 with h1_def
    have h1_lit : h1 = ⟨h.mem ++ [(⟨v, none, some f⟩ : Node α)]⟩ := by
      rw [h1_def, hhead]; rfl
    have hget1f : h1.get? f = some fnd := by
      rw [h1_def, Heap.get?_alloc_lt hflt]; exact hgetf
    have hget1a : h1.get? a = some ⟨v, none, some f⟩ := by
      rw [h1_lit, ha_def]
      simp [Heap.get?]
    set h2 := h1.set f { fnd with prev := some a } with h2_def
    have hag : ∀ b ∈ rest, h2.get? b = h.get? b := by
      intro b hb
      rw [h2_def, Heap.get?_set_ne _ (by rintro rfl; exact hfnotr hb),
        h1_def, Heap.get?_alloc_lt (hr.valid b (by simp [hb]))]
    refine ⟨h2, { d with head := some a, _length := d._length + 1 },
      a :: (f :: rest), ?_, ?_, ?_, ?_⟩
    · have hget1f' : Heap.get? ⟨h.mem ++ [(⟨v, none, some f⟩ : Node α)]⟩ f = some fnd := by
        rw [← h1_lit]; exact hget1f
      simp [pushLeft, h0, hhead, Heap.read, Heap.alloc, hget1f', h2_def, h1_lit, ha_def]
    · refine ⟨by simp, by simp, ?_, ?_, ?_, ?_⟩
      · rw [hr.tl]
        rcases List.eq_nil_or_concat' rest with rfl | ⟨ys, b, rfl⟩ <;>
          simp [List.getLast?_concat]
      · have hnd := hr.nodup
        have hanotin : a ∉ f :: rest := by
          intro hmem
          have := hr.valid a hmem
          omega
        exact List.Nodup.cons hanotin hnd
      · refine ⟨⟨v, none, some f⟩, ?_, rfl, by simp, ?_⟩
        · rw [h2_def, Heap.get?_set_ne _ (by omega)]
          exact hget1a
        · refine ⟨{ fnd with prev := some a }, ?_, rfl, by simpa using hnextf, ?_⟩
          · rw [h2_def]; exact Heap.get?_set_self hget1f
          · exact chainSeg_mono hag hchainr
      · refine Or.inr ⟨by show (0:Int) < d._length + 1; omega, ?_⟩
        show d._length + 1 = _
        have hL : (a :: f :: rest).length = (f :: rest).length + 1 := rfl
        rw [hlen, hL]
        push_cast
        ring
    · have hvalf : nodeVal h2 f = nodeVal h f := by
        simp [nodeVal, h2_def, Heap.get?_set_self hget1f, hgetf]
      have hvala : nodeVal h2 a = v := by
        simp only [nodeVal, h2_def]
        rw [Heap.get?_set_ne _ (by omega), hget1a]
      simp only [absL]
      rw [if_neg (by show ¬(d._length + 1 = 0); omega), if_neg h0]
      rw [List.map_cons, List.map_cons, List.map_cons, hvala, hvalf]
      congr 2
      exact map_nodeVal_congr hag
    · refine ⟨by simp [h2_def, h1_def], ?_, ?_⟩
      · intro b hb hblt
        rw [h2_def, Heap.get?_set_ne _ (by rintro rfl; exact hb (by simp)),
          h1_def, Heap.get?_alloc_lt hblt]
      · intro b hb
        rcases List.mem_cons.mp hb with rfl | hb'
        · exact Or.inr le_rfl
        · exact Or.inl hb'

theorem pop_empty {h : Heap α} {d : Deque} (h0 : d._length = 0) :
    pop h d = .ok (none, h, d) := by
  simp [pop, h0]

theorem popleft_empty {h : Heap α} {d : Deque} (h0 : d._length = 0) :
    popleft h d = .ok (none, h, d) := by
  simp [popleft, h0]

theorem pop_spec {h : Heap α} {d : Deque} {addrs : List Nat}
    (hr : ReprA h d addrs) (hpos : 0 < d._length) :
    ∃ v h' d' addrs' l', pop h d = .ok (v, h', d') ∧ ReprA h' d' addrs' ∧
      absL h d addrs = l' ++ [v] ∧ absL h' d' addrs' = l' ∧
      Footprint h addrs h' addrs' := by
  obtain ⟨h0, -⟩ | ⟨-, hlen⟩ := hr.len
  · omega
  by_cases h1c : d._length = 1
  · -- length 1: clear the sentinel's value
    have hlen1 : addrs.length = 1 := by omega
    obtain ⟨s, rfl⟩ := List.length_eq_one.mp hlen1
    obtain ⟨nd, hget, hprev, hnext⟩ := chainSeg_singleton.mp hr.chain
    have hhead : d.head = some s := by simpa using hr.hd
    refine ⟨nd.val, h.set s { nd with val := none },
      { d with _length := d._length - 1 }, [s], [], ?_, ?_, ?_, ?_, ?_⟩
    · simp [pop, h1c, hpos.ne', hhead, Heap.read, hget]
    · refine ⟨by simp, by simpa using hr.hd, by simpa using hr.tl, hr.nodup,
        ?_, ?_⟩
      · exact chainSeg_singleton.mpr
          ⟨_, Heap.get?_set_self hget, by simpa using hprev, by simpa using hnext⟩
      · refine Or.inl ⟨by show d._length - 1 = 0; omega, by simp, ?_⟩
        intro a ha
        rcases List.mem_singleton.mp ha with rfl
        simp [nodeVal, Heap.get?_set_self hget]
    · rw [absL, if_neg hpos.ne']
      simp [nodeVal, hget]
    · rw [absL, if_pos (by show d._length - 1 = 0; omega)]
    · refine ⟨le_of_eq Heap.length_set.symm, ?_, ?_⟩
      · intro a ha _
        refine Heap.get?_set_ne _ fun hsa => ?_
        simp [hsa] at ha
      · simp
  · -- length ≥ 2: unlink the tail node
    have hge2 : 2 ≤ d._length := by omega
    have hlen2 : 2 ≤ addrs.length := by omega
    obtain rfl | ⟨xs, t, rfl⟩ := List.eq_nil_or_concat' addrs
    · exact absurd rfl hr.ne
    have hxs_ne : xs ≠ [] := by
      rintro rfl; simp at hlen2
    obtain rfl | ⟨ys, p, rfl⟩ := List.eq_nil_or_concat' xs
    · exact absurd rfl hxs_ne
    have htail : d.tail = some t := by simpa [List.getLast?_concat] using hr.tl
    obtain ⟨hchain_front, hchain_t⟩ := (chainSeg_append (ys ++ [p])).mp hr.chain
    obtain ⟨tnd, hgett, hprevt, hnextt⟩ := chainSeg_singleton.mp hchain_t
    obtain ⟨hchain_ys, hchain_p⟩ := (chainSeg_append ys).mp hchain_front
    obtain ⟨pnd, hgetp, hprevp, hnextp⟩ := chainSeg_singleton.mp hchain_p
    have hprevt' : tnd.prev = some p := by
      simpa [List.getLast?_concat] using hprevt
    have hnd := hr.nodup
    have hpnott : p ≠ t := by
      intro hpt
      simp [List.nodup_append, hpt] at hnd
    have hpnotys : p ∉ ys := by
      simp [List.nodup_append] at hnd
      tauto
    have htnotys : t ∉ ys := by
      simp [List.nodup_append] at hnd
      tauto
    set h' := h.set p { pnd with next := none } with hsetdef
    have hag : ∀ b ∈ ys, h'.get? b = h.get? b := by
      intro b hb
      rw [hsetdef, Heap.get?_set_ne _ (by rintro rfl; exact hpnotys hb)]
    refine ⟨tnd.val, h', { d with tail := some p, _length := d._length - 1 },
      ys ++ [p], (ys ++ [p]).map (nodeVal h), ?_, ?_, ?_, ?_, ?_⟩
    · simp [pop, hpos.ne', h1c, htail, Heap.read, hgett, hprevt', hgetp, hsetdef]
    · refine ⟨by simp, ?_, by simp [List.getLast?_concat], ?_, ?_, ?_⟩
      · rw [hr.hd]
        rcases List.eq_nil_or_concat' ys with rfl | ⟨zs, y, rfl⟩ <;> simp
      · exact List.Nodup.sublist (List.sublist_append_left _ _) hnd
      · rw [chainSeg_append ys]
        refine ⟨chainSeg_mono hag hchain_ys, ?_⟩
        refine chainSeg_singleton.mpr ⟨{ pnd with next := none }, ?_, ?_, rfl⟩
        · rw [hsetdef]; exact Heap.get?_set_self hgetp
        · simpa using hprevp
      · refine Or.inr ⟨by show (0:Int) < d._length - 1; omega, ?_⟩
        show d._length - 1 = _
        have hL : ((ys ++ [p]) ++ [t]).length = (ys ++ [p]).length + 1 := by simp
        rw [hlen, hL]
        push_cast
        ring
    · rw [absL, if_neg (by omega), List.map_append]
      congr 1
      simp [nodeVal, hgett]
    · rw [absL, if_neg (by show ¬(d._length - 1 = 0); omega)]
      rw [List.map_append, List.map_append]
      congr 1
      · exact map_nodeVal_congr hag
      · -- the value of `p` is unchanged by the `next := none` write
        simp only [List.map_cons, List.map_nil]
        congr 1
        rw [hsetdef]
        simp [nodeVal, Heap.get?_set_self hgetp, hgetp]
    · refine ⟨le_of_eq Heap.length_set.symm, ?_, ?_⟩
      · intro b hb _
        refine Heap.get?_set_ne _ fun hsb => ?_
        simp [← hsb] at hb
      · intro b hb
        refine Or.inl ?_
        rcases List.mem_append.mp hb with hb' | hb'
        · simp [hb']
        · rcases List.mem_singleton.mp hb' with rfl
          simp

theorem popleft_spec {h : Heap α} {d : Deque} {addrs : List Nat}
    (hr : ReprA h d addrs) (hpos : 0 < d._length) :
    ∃ v h' d' addrs' l', popleft h d = .ok (v, h', d') ∧ ReprA h' d' addrs' ∧
      absL h d addrs = v :: l' ∧ absL h' d' addrs' = l' ∧
      Footprint h addrs h' addrs' := by
  obtain ⟨h0, -⟩ | ⟨-, hlen⟩ := hr.len
  · omega
  by_cases h1c : d._length = 1
  · -- length 1: clear the sentinel's value
    have hlen1 : addrs.length = 1 := by omega
    obtain ⟨s, rfl⟩ := List.length_eq_one.mp hlen1
    obtain ⟨nd, hget, hprev, hnext⟩ := chainSeg_singleton.mp hr.chain
    have hhead : d.head = some s := by simpa using hr.hd
    refine ⟨nd.val, h.set s { nd with val := none },
      { d with _length := d._length - 1 }, [s], [], ?_, ?_, ?_, ?_, ?_⟩
    · simp [popleft, h1c, hpos.ne', hhead, Heap.read, hget]
    · refine ⟨by simp, by simpa using hr.hd, by simpa using hr.tl, hr.nodup,
        ?_, ?_⟩
      · exact chainSeg_singleton.mpr
          ⟨_, Heap.get?_set_self hget, by simpa using hprev, by simpa using hnext⟩
      · refine Or.inl ⟨by show d._length - 1 = 0; omega, by simp, ?_⟩
        intro a ha
        rcases List.mem_singleton.mp ha with rfl
        simp [nodeVal, Heap.get?_set_self hget]
    · rw [absL, if_neg hpos.ne']
      simp [nodeVal, hget]
    · rw [absL, if_pos (by show d._length - 1 = 0; omega)]
    · refine ⟨le_of_eq Heap.length_set.symm, ?_, ?_⟩
      · intro a ha _
        refine Heap.get?_set_ne _ fun hsa => ?_
        simp [hsa] at ha
      · simp
  · -- length ≥ 2: unlink the head node
    have hge2 : 2 ≤ d._length := by omega
    have hlen2 : 2 ≤ addrs.length := by omega
    obtain ⟨f, rest, rfl⟩ := List.exists_cons_of_ne_nil hr.ne
    have hrest_ne : rest ≠ [] := by
      rintro rfl; simp at hlen2
    obtain ⟨n0, rest', rfl⟩ := List.exists_cons_of_ne_nil hrest_ne
    have hhead : d.head = some f := by simpa using hr.hd
    obtain ⟨fnd, hgetf, hprevf, hnextf, hchain_rest⟩ := hr.chain
    obtain ⟨n0nd, hgetn0, hprevn0, hnextn0, hchain_rest'⟩ := hchain_rest
    have hnextf' : fnd.next = some n0 := by simpa using hnextf
    have hnd := hr.nodup
    have hfnotn0 : f ≠ n0 := by
      intro hfn; simp [hfn] at hnd
    have hn0notrest' : n0 ∉ rest' := by
      simp at hnd
      tauto
    set h' := h.set n0 { n0nd with prev := none } with hsetdef
    have hag : ∀ b ∈ rest', h'.get? b = h.get? b := by
      intro b hb
      rw [hsetdef, Heap.get?_set_ne _ (by rintro rfl; exact hn0notrest' hb)]
    refine ⟨fnd.val, h', { d with head := some n0, _length := d._length - 1 },
      n0 :: rest', (n0 :: rest').map (nodeVal h), ?_, ?_, ?_, ?_, ?_⟩
    · simp [popleft, hpos.ne', h1c, hhead, Heap.read, hgetf, hnextf', hgetn0, hsetdef]
    · refine ⟨by simp, by simp, ?_, ?_, ?_, ?_⟩
      · rw [hr.tl]
        simp [List.getLast?_cons_cons]
      · exact (List.nodup_cons.mp hnd).2
      · refine ⟨{ n0nd with prev := none }, ?_, rfl, by simpa using hnextn0, ?_⟩
        · rw [hsetdef]; exact Heap.get?_set_self hgetn0
        · exact chainSeg_mono hag hchain_rest'
      · refine Or.inr ⟨by show (0:Int) < d._length - 1; omega, ?_⟩
        show d._length - 1 = _
        have hL : (f :: n0 :: rest').length = (n0 :: rest').length + 1 := rfl
        rw [hlen, hL]
        push_cast
        ring
    · rw [absL, if_neg (by omega)]
      simp only [List.map_cons]
      congr 1
      simp [nodeVal, hgetf]
    · rw [absL, if_neg (by show ¬(d._length - 1 = 0); omega)]
      simp only [List.map_cons]
      congr 1
      · rw [hsetdef]
        simp [nodeVal, Heap.get?_set_self hgetn0, hgetn0]
      · exact map_nodeVal_congr hag
    · refine ⟨le_of_eq Heap.length_set.symm, ?_, ?_⟩
      · intro b hb _
        refine Heap.get?_set_ne _ fun hsb => ?_
        simp [← hsb] at hb
      · intro b hb
        exact Or.inl (by simp [List.mem_cons.mp hb])

theorem getHead_empty {h : Heap α} {d : Deque} {addrs : List Nat}
    (hr : ReprA h d addrs) (h0 : d._length = 0) :
    getHead h d = .ok none := by
  obtain ⟨-, hlen1, hvals⟩ | ⟨hpos, -⟩ := hr.len
  swap; · omega
  obtain ⟨s, rfl⟩ := List.length_eq_one.mp hlen1
  obtain ⟨nd, hget, -, -⟩ := chainSeg_singleton.mp hr.chain
  have hhead : d.head = some s := by simpa using hr.hd
  have hval : nd.val = none := by
    have := hvals s (by simp)
    simpa [nodeVal, hget] using this
  simp [getHead, hhead, Heap.read, hget, hval]

theorem getTail_empty {h : Heap α} {d : Deque} {addrs : List Nat}
    (hr : ReprA h d addrs) (h0 : d._length = 0) :
    getTail h d = .ok none := by
  obtain ⟨-, hlen1, hvals⟩ | ⟨hpos, -⟩ := hr.len
  swap; · omega
  obtain ⟨s, rfl⟩ := List.length_eq_one.mp hlen1
  obtain ⟨nd, hget, -, -⟩ := chainSeg_singleton.mp hr.chain
  have htail : d.tail = some s := by simpa using hr.tl
  have hval : nd.val = none := by
    have := hvals s (by simp)
    simpa [nodeVal, hget] using this
  simp [getTail, htail, Heap.read, hget, hval]

theorem clear_spec {h : Heap α} {d : Deque} {addrs : List Nat}
    (hr : ReprA h d addrs) :
    ∃ h' d' s, clear h d = .ok (h', d') ∧ ReprA h' d' [s] ∧
      absL h' d' [s] = [] ∧ Footprint h addrs h' [s] := by
  obtain ⟨f, rest, rfl⟩ := List.exists_cons_of_ne_nil hr.ne
  have hhead : d.head = some f := by simpa using hr.hd
  obtain ⟨fnd, hgetf, hprevf, -, -⟩ := hr.chain
  refine ⟨h.set f { fnd with val := none, next := none },
    { d with tail := d.head, _length := 0 }, f, ?_, ?_, ?_, ?_⟩
  · simp [clear, hhead, Heap.read, hgetf]
  · refine ⟨by simp, by simpa using hhead, by simpa using hhead, by simp, ?_, ?_⟩
    · exact chainSeg_singleton.mpr
        ⟨_, Heap.get?_set_self hgetf, by simpa using hprevf, rfl⟩
    · refine Or.inl ⟨rfl, rfl, ?_⟩
      intro a ha
      rcases List.mem_singleton.mp ha with rfl
      simp [nodeVal, Heap.get?_set_self hgetf]
  · rw [absL, if_pos rfl]
  · refine ⟨le_of_eq Heap.length_set.symm, ?_, ?_⟩
    · intro a ha _
      refine Heap.get?_set_ne _ fun hsa => ?_
      simp [← hsa] at ha
    · intro a ha
      rcases List.mem_singleton.mp ha with rfl
      simp

theorem mkDeque_spec (h : Heap α) :
    ReprA (mkDeque h).1 (mkDeque h).2 [h.mem.length] ∧
      absL (mkDeque h).1 (mkDeque h).2 [h.mem.length] = [] ∧
      (∀ a, a < h.mem.length → (mkDeque h).1.get? a = h.get? a) ∧
      (mkDeque h).1.mem.length = h.mem.length + 1 := by
  have hget : (mkDeque h).1.get? h.mem.length = some ⟨none, none, none⟩ := by
    simp [mkDeque, Heap.get?, Heap.alloc]
  refine ⟨⟨by simp, rfl, rfl, by simp, ?_, ?_⟩, ?_, ?_, ?_⟩
  · exact chainSeg_singleton.mpr ⟨_, hget, rfl, rfl⟩
  · exact Or.inl ⟨rfl, rfl, by
      intro a ha
      rcases List.mem_singleton.mp ha with rfl
      simp [nodeVal, hget]⟩
  · rw [absL, if_pos (show (mkDeque h).2._length = 0 by rfl)]
  · intro a ha
    simp [mkDeque]
    exact Heap.get?_alloc_lt ha
  · simp [mkDeque]

theorem pushAll_spec (l : List (Option α)) :
    ∀ {h : Heap α} {d : Deque} {addrs : List Nat}, ReprA h d addrs →
    ∃ h' d' addrs', pushAll h d l = .ok (h', d') ∧ ReprA h' d' addrs' ∧
      absL h' d' addrs' = absL h d addrs ++ l ∧
      Footprint h addrs h' addrs' := by
  induction l with
  | nil =>
    intro h d addrs hr
    exact ⟨h, d, addrs, rfl, hr, by simp, Footprint.refl h addrs⟩
  | cons v rest ih =>
    intro h d addrs hr
    obtain ⟨h1, d1, addrs1, heq1, hr1, habs1, hfp1⟩ := push_spec hr v
    obtain ⟨h2, d2, addrs2, heq2, hr2, habs2, hfp2⟩ := ih hr1
    refine ⟨h2, d2, addrs2, ?_, hr2, ?_, hfp1.trans hfp2⟩
    · simp [pushAll, heq1, heq2]
    · rw [habs2, habs1]
      simp

theorem dequeOfList_spec (h : Heap α) (l : List (Option α)) :
    ∃ h' d' addrs', dequeOfList h l = .ok (h', d') ∧ ReprA h' d' addrs' ∧
      absL h' d' addrs' = l ∧ (∀ a ∈ addrs', h.mem.length ≤ a) ∧
      (∀ a, a < h.mem.length → h'.get? a = h.get? a) := by
  obtain ⟨hr0, habs0, hframe0, hlen0⟩ := mkDeque_spec h
  obtain ⟨h', d', addrs', heq, hr, habs, hfp⟩ := pushAll_spec l hr0
  refine ⟨h', d', addrs', ?_, hr, by rw [habs, habs0]; simp, ?_, ?_⟩
  · simp [dequeOfList]
    exact heq
  · intro a ha
    rcases hfp.sub a ha with hmem | hge
    · rcases List.mem_singleton.mp hmem with rfl
      exact le_rfl
    · omega
  · intro a ha
    rw [hfp.frame a (by simp; omega) (by omega), hframe0 a ha]

/-- If the constructor succeeds, the result represents the given list. -/
theorem dequeOfList_ok {h h' : Heap α} {d' : Deque} {l : List (Option α)}
    (heq : dequeOfList h l = .ok (h', d')) : Rep h' d' l := by
  obtain ⟨h'', d'', addrs, heq', hr, habs, -, -⟩ := dequeOfList_spec h l
  rw [heq] at heq'
  injection heq' with hpair
  obtain ⟨rfl, rfl⟩ := Prod.mk.injEq .. ▸ Prod.ext_iff.mp hpair
  exact ⟨addrs, hr, habs.symm⟩

theorem Rep.inv {h : Heap α} {d : Deque} {l : List (Option α)}
    (hrep : Rep h d l) : Inv h d := ⟨hrep.choose, hrep.choose_spec.1⟩

/-! ### List bookkeeping helpers -/

theorem length_le_of_nodup_lt {l : List Nat} {N : Nat} (h1 : l.Nodup)
    (h2 : ∀ a ∈ l, a < N) : l.length ≤ N := by
  classical
  have hcard : l.toFinset.card = l.length := List.toFinset_card_of_nodup h1
  rw [← hcard]
  have hsub : l.toFinset ⊆ Finset.range N := by
    intro a ha
    simp only [List.mem_toFinset] at ha
    simpa using h2 a ha
  simpa using Finset.card_le_card hsub

theorem insertIdx_append_length {β : Type} (xs ys : List β) (v : β) :
    (xs ++ ys).insertIdx xs.length v = xs ++ v :: ys := by
  induction xs with
  | nil => simp
  | cons a xs ih => simp [List.insertIdx_succ_cons, ih]

theorem eraseIdx_append_length {β : Type} (xs ys : List β) (c : β) :
    (xs ++ c :: ys).eraseIdx xs.length = xs ++ ys := by
  induction xs with
  | nil => simp
  | cons a xs ih => simp [ih]

theorem getElem?_append_length {β : Type} (xs ys : List β) (c : β) :
    (xs ++ c :: ys)[xs.length]? = some c := by
  rw [List.getElem?_append_right le_rfl]
  simp

/-- Split a list at a valid index. -/
theorem exists_splitAt {β : Type} {l : List β} {i : Nat} {c : β}
    (hget : l[i]? = some c) :
    ∃ xs rest, l = xs ++ c :: rest ∧ xs.length = i := by
  obtain ⟨hi, hc⟩ := List.getElem?_eq_some_iff.mp hget
  refine ⟨l.take i, l.drop (i + 1), ?_, List.length_take_of_le hi.le⟩
  rw [← hc]
  rw [List.getElem_cons_drop l i hi]
  exact (List.take_append_drop i l).symm

/-! ### Generic traversal lemmas

The three indexed operations (`at`, `insertAt`, `removeAt`) all start their
`while` loop at `head` (counter `0`, step `+1`) or at `tail` (counter
`length - 1`, step `-1`) and skip nodes until the counter equals `index`.
The two lemmas below run such a loop along a chain to the target node; they
are stated for any loop body `F`, characterised by its skipping step. -/

theorem walk_forward {β : Type} {h : Heap α} (F : Option Nat → Int → Nat → β)
    (target : Int)
    (step : ∀ a nd idx fl, h.get? a = some nd → idx ≠ target →
      F (some a) idx (fl + 1) = F nd.next (idx + 1) fl) :
    ∀ (addrs : List Nat) (p n : Option Nat) (b : Int) (i fuel : Nat)
      (c : Nat), chainSeg h p addrs n → addrs[i]? = some c →
      target = b + i → i ≤ fuel →
      F addrs.head? b fuel = F (some c) target (fuel - i) := by
  intro addrs
  induction addrs with
  | nil => intro p n b i fuel c _ hget; simp at hget
  | cons a rest ih =>
    intro p n b i fuel c hchain hget htarget hfuel
    obtain ⟨nd, hgeta, -, hnext, hrest⟩ := hchain
    cases i with
    | zero =>
      simp only [List.getElem?_cons_zero, Option.some.injEq] at hget
      subst hget
      have : target = b := by omega
      subst this
      simp
    | succ i' =>
      obtain ⟨fl, rfl⟩ : ∃ fl, fuel = fl + 1 := ⟨fuel - 1, by omega⟩
      have hrest_ne : rest ≠ [] := by
        rintro rfl
        simp at hget
      have hbne : b ≠ target := by
        simp only [Nat.cast_succ] at htarget
        omega
      have hnext' : nd.next = rest.head? := by
        rw [hnext]
        cases rest with
        | nil => exact absurd rfl hrest_ne
        | cons e rest' => simp
      rw [List.head?_cons, step a nd b fl hgeta hbne, hnext']
      have := ih (some a) n (b + 1) i' fl c hrest (by simpa using hget)
        (by simp only [Nat.cast_succ] at htarget; omega) (by omega)
      rw [this]
      congr 1
      omega

theorem walk_backward {β : Type} {h : Heap α} (F : Option Nat → Int → Nat → β)
    (target : Int)
    (step : ∀ a nd idx fl, h.get? a = some nd → idx ≠ target →
      F (some a) idx (fl + 1) = F nd.prev (idx - 1) fl) :
    ∀ (addrs : List Nat) (p n : Option Nat) (i fuel : Nat) (c : Nat),
      chainSeg h p addrs n → addrs[i]? = some c →
      target = (i : Int) → addrs.length - 1 - i ≤ fuel →
      F addrs.getLast? ((addrs.length : Int) - 1) fuel
        = F (some c) target (fuel - (addrs.length - 1 - i)) := by
  intro addrs
  induction addrs using List.reverseRecOn with
  | nil => intro p n i fuel c _ hget; simp at hget
  | append_singleton xs a ih =>
    intro p n i fuel c hchain hget htarget hfuel
    obtain ⟨hchain_xs, hchain_a⟩ := (chainSeg_append xs).mp hchain
    obtain ⟨and, hgeta, hpreva, -⟩ := chainSeg_singleton.mp hchain_a
    by_cases hi : i = xs.length
    · subst hi
      have hc : c = a := by
        rw [List.getElem?_concat_length] at hget
        exact (Option.some.injEq .. ▸ hget).symm
      subst hc
      have hL : ((xs ++ [c]).length : Int) - 1 = (xs.length : Int) := by
        simp
      rw [List.getLast?_concat, hL, htarget]
      have h0 : (xs ++ [c]).length - 1 - xs.length = 0 := by simp
      rw [h0, Nat.sub_zero]
    · have hixs : i < xs.length := by
        have : i < (xs ++ [a]).length := (List.getElem?_eq_some_iff.mp hget).1
        simp at this
        omega
      have hget' : xs[i]? = some c := by
        rw [← hget, List.getElem?_append_left hixs]
      have hxs_ne : xs ≠ [] := by
        rintro rfl
        simp at hixs
      obtain ⟨fl, rfl⟩ : ∃ fl, fuel = fl + 1 := ⟨fuel - 1, by
        have : (xs ++ [a]).length - 1 - i = xs.length - i := by simp
        omega⟩
      have hbne : ((xs ++ [a]).length : Int) - 1 ≠ target := by
        simp only [List.length_append, List.length_singleton]
        rw [htarget]
        push_cast
        omega
      have hpreva' : and.prev = xs.getLast? := by
        rw [hpreva]
        rcases List.eq_nil_or_concat' xs with rfl | ⟨ys, y, rfl⟩
        · exact absurd rfl hxs_ne
        · simp [List.getLast?_concat]
      rw [List.getLast?_concat, step a and _ fl hgeta hbne, hpreva']
      have hcount : ((xs ++ [a]).length : Int) - 1 - 1
          = (xs.length : Int) - 1 := by
        simp
      rw [hcount]
      have := ih p (some a) i fl c hchain_xs hget' htarget (by
        have : (xs ++ [a]).length - 1 - i = xs.length - i := by simp
        omega)
      rw [this]
      congr 1
      have : (xs ++ [a]).length - 1 - i = xs.length - i := by simp
      omega

/-! ### Specification of the indexed operations -/

/-- Unfolding of `at` on an in-range index. -/
theorem at_eq_loop {h : Heap α} {d : Deque} {i : Int}
    (hrange : ¬(i ≥ d._length ∨ i < 0)) :
    «at» h d i = atLoop h i (decide (i > d._length / 2))
      (if i > d._length / 2 then d.tail else d.head)
      (if i > d._length / 2 then d._length - 1 else 0) (h.mem.length + 1) := by
  rw [«at», if_neg hrange]

theorem at_spec {h : Heap α} {d : Deque} {addrs : List Nat}
    (hr : ReprA h d addrs) {i : Int} (h0 : 0 ≤ i) (hi : i < d._length) :
    ∃ v, «at» h d i = .ok v ∧ (absL h d addrs)[i.toNat]? = some v := by
  obtain ⟨hz, -⟩ | ⟨hpos, hlen⟩ := hr.len
  · omega
  have hlt : i.toNat < addrs.length := by omega
  obtain ⟨c, hgetc⟩ : ∃ c, addrs[i.toNat]? = some c :=
    ⟨_, List.getElem?_eq_getElem hlt⟩
  have hcmem : c ∈ addrs := by
    obtain ⟨hl, hc⟩ := List.getElem?_eq_some_iff.mp hgetc
    exact hc ▸ List.getElem_mem hl
  obtain ⟨cnd, hcnd⟩ := chainSeg_get hr.chain hcmem
  have hbound : addrs.length ≤ h.mem.length :=
    length_le_of_nodup_lt hr.nodup hr.valid
  have hival : (i.toNat : Int) = i := Int.toNat_of_nonneg h0
  refine ⟨cnd.val, ?_, ?_⟩
  swap
  · rw [absL, if_neg hpos.ne', List.getElem?_map, hgetc]
    simp [nodeVal, hcnd]
  rw [at_eq_loop (by push_neg; exact ⟨by omega, h0⟩)]
  by_cases hpm : i > d._length / 2
  · -- backward scan from the tail
    rw [if_pos hpm, if_pos hpm, decide_eq_true hpm]
    have hstep : ∀ a nd idx fl, h.get? a = some nd → idx ≠ i →
        atLoop h i true (some a) idx (fl + 1) = atLoop h i true nd.prev (idx - 1) fl := by
      intro a nd idx fl hget hidx
      have harith : idx + (-1 : Int) = idx - 1 := by ring
      simp [atLoop, hget, hidx, harith]
    have hwalk := walk_backward (atLoop h i true) i hstep addrs none none
      i.toNat (h.mem.length + 1) c hr.chain hgetc hival.symm (by omega)
    rw [hr.tl, hlen, hwalk]
    obtain ⟨fl, hfl⟩ : ∃ fl,
        h.mem.length + 1 - (addrs.length - 1 - i.toNat) = fl + 1 :=
      ⟨h.mem.length - (addrs.length - 1 - i.toNat), by omega⟩
    rw [hfl]
    simp [atLoop, hcnd]
  · -- forward scan from the head
    rw [if_neg hpm, if_neg hpm, decide_eq_false hpm]
    have hstep : ∀ a nd idx fl, h.get? a = some nd → idx ≠ i →
        atLoop h i false (some a) idx (fl + 1) = atLoop h i false nd.next (idx + 1) fl := by
      intro a nd idx fl hget hidx
      simp [atLoop, hget, hidx]
    have hwalk := walk_forward (atLoop h i false) i hstep addrs none none
      0 i.toNat (h.mem.length + 1) c hr.chain hgetc (by omega) (by omega)
    rw [hr.hd, hwalk]
    obtain ⟨fl, hfl⟩ : ∃ fl, h.mem.length + 1 - i.toNat = fl + 1 :=
      ⟨h.mem.length - i.toNat, by omega⟩
    rw [hfl]
    simp [atLoop, hcnd]

/-- The found branch of the `insertAt` loop: splice the new node in before
`current` (`c`), rewriting `prev.next`, the new node's links, and
`current.prev`, exactly in source order. -/
theorem insertAtLoop_found {h : Heap α} {d : Deque} {newAddr : Nat} {i : Int}
    {pm : Bool} {c p : Nat} {cnd pnd : Node α} {v : Option α} (fl : Nat)
    (hgetc : h.get? c = some cnd) (hprevc : cnd.prev = some p)
    (hgetp : h.get? p = some pnd) (hpa : p ≠ newAddr) (hca : c ≠ newAddr)
    (hpc : p ≠ c) (hgeta : h.get? newAddr = some ⟨v, none, none⟩) :
    insertAtLoop h d newAddr i pm (some c) i (fl + 1) =
      .ok (true,
        ((h.set p { pnd with next := some newAddr }).set newAddr
            ⟨v, some p, some c⟩).set c { cnd with prev := some newAddr },
        { d with _length := d._length + 1 }) := by
  have hget1a : (h.set p { pnd with next := some newAddr }).get? newAddr
      = some ⟨v, none, none⟩ := by
    rw [Heap.get?_set_ne _ hpa]; exact hgeta
  have hget2c : ((h.set p { pnd with next := some newAddr }).set newAddr
      ⟨v, some p, some c⟩).get? c = some cnd := by
    rw [Heap.get?_set_ne _ (Ne.symm hca), Heap.get?_set_ne _ hpc]; exact hgetc
  simp [insertAtLoop, hgetc, hprevc, Heap.read, hgetp, hget1a, hget2c]

/-- Unfolding of `insertAt` on an in-range interior index. -/
theorem insertAt_eq_loop {h : Heap α} {d : Deque} {v : Option α} {i : Int}
    (hrange : ¬(i < 0 ∨ i ≥ d._length)) (hi0 : ¬i = 0) :
    insertAt h d v i =
      insertAtLoop (h.alloc ⟨v, none, none⟩).1 d (h.alloc ⟨v, none, none⟩).2 i
        (decide (i > d._length / 2))
        (if i > d._length / 2 then d.tail else d.head)
        (if i > d._length / 2 then d._length - 1 else 0)
        ((h.alloc ⟨v, none, none⟩).1.mem.length + 1) := by
  rw [insertAt, if_neg hrange, if_neg hi0]

theorem insertAt_spec {h : Heap α} {d : Deque} {addrs : List Nat}
    (hr : ReprA h d addrs) (v : Option α) {i : Int}
    (h0 : 0 ≤ i) (hi : i < d._length) :
    ∃ h' d' addrs', insertAt h d v i = .ok (true, h', d') ∧
      ReprA h' d' addrs' ∧
      absL h' d' addrs' = (absL h d addrs).insertIdx i.toNat v ∧
      Footprint h addrs h' addrs' := by
  obtain ⟨hz, -⟩ | ⟨hpos, hlen⟩ := hr.len
  · omega
  by_cases hi0 : i = 0
  · -- index 0 delegates to pushLeft
    subst hi0
    obtain ⟨h', d', addrs', heq, hr', habs, hfp⟩ := pushLeft_spec hr v
    refine ⟨h', d', addrs', ?_, hr', ?_, hfp⟩
    · rw [insertAt, if_neg (by push_neg; exact ⟨le_rfl, hi⟩), if_pos rfl, heq]
      rfl
    · rw [habs]
      simp [List.insertIdx_zero]
  · -- interior insertion
    have hige1 : 1 ≤ i := by omega
    have hlt : i.toNat < addrs.length := by omega
    obtain ⟨c, hgetc_idx⟩ : ∃ c, addrs[i.toNat]? = some c :=
      ⟨_, List.getElem?_eq_getElem hlt⟩
    obtain ⟨xs, rest, hsplit, hxslen⟩ := exists_splitAt hgetc_idx
    subst hsplit
    have hxs_ne : xs ≠ [] := by
      rintro rfl; simp at hxslen; omega
    obtain ⟨ys, p, rfl⟩ := List.eq_nil_or_concat' xs |>.resolve_left hxs_ne
    -- decompose the chain around the insertion point
    obtain ⟨hchain_xs, hchain_cr⟩ := (chainSeg_append (ys ++ [p])).mp hr.chain
    obtain ⟨hchain_ys, hchain_p⟩ := (chainSeg_append ys).mp hchain_xs
    obtain ⟨pnd, hgetp, hprevp, hnextp⟩ := chainSeg_singleton.mp hchain_p
    obtain ⟨cnd, hgetc, hprevc, hnextc, hchain_rest⟩ := hchain_cr
    have hprevc' : cnd.prev = some p := by
      simpa [List.getLast?_concat] using hprevc
    have hnextp' : pnd.next = some c := by simpa using hnextp
    -- distinctness
    have hnd := hr.nodup
    rw [List.nodup_append] at hnd
    obtain ⟨hnd_xs, hnd_cr, hdisj⟩ := hnd
    have hpc : p ≠ c := fun hpceq =>
      hdisj (show p ∈ ys ++ [p] by simp) (show p ∈ c :: rest by simp [hpceq])
    have hpnotys : p ∉ ys := by
      have hnd_xs' := hnd_xs
      rw [List.nodup_append] at hnd_xs'
      exact fun hmem => hnd_xs'.2.2 hmem (by simp)
    have hcnotrest : c ∉ rest := (List.nodup_cons.mp hnd_cr).1
    have hpnotrest : p ∉ rest := fun hmem =>
      hdisj (show p ∈ ys ++ [p] by simp) (show p ∈ c :: rest by simp [hmem])
    have hcnotys : c ∉ ys :=
      fun hmem => hdisj (show c ∈ ys ++ [p] by simp [hmem]) (by simp)
    -- the fresh node
    set a := h.mem.length with ha_def
    have hvalid := hr.valid
    have hfreshp : p ≠ a := by have := hvalid p (by simp); omega
    have hfreshc : c ≠ a := by have := hvalid c (by simp); omega
    set h1 := (h.alloc ⟨v, none, none⟩).1 with h1_def
    have hget1 : ∀ b ∈ (ys ++ [p]) ++ c :: rest, h1.get? b = h.get? b := by
      intro b hb
      rw [h1_def, Heap.get?_alloc_lt (hvalid b hb)]
    have hget1a : h1.get? a = some ⟨v, none, none⟩ := by
      rw [h1_def, ha_def]
      exact Heap.get?_alloc_new
    have hchain1 : chainSeg h1 none ((ys ++ [p]) ++ c :: rest) none :=
      chainSeg_mono hget1 hr.chain
    have hget1c : h1.get? c = some cnd := by
      rw [hget1 c (by simp)]; exact hgetc
    have hget1p : h1.get? p = some pnd := by
      rw [hget1 p (by simp)]; exact hgetp
    -- the three heap writes of the splice
    set h2 := h1.set p { pnd with next := some a } with h2_def
    set h3 := h2.set a (⟨v, some p, some c⟩ : Node α) with h3_def
    set h4 := h3.set c { cnd with prev := some a } with h4_def
    have hget4 : ∀ b, b ≠ p → b ≠ a → b ≠ c → h4.get? b = h1.get? b := by
      intro b hbp hba hbc
      rw [h4_def, Heap.get?_set_ne _ (Ne.symm hbc), h3_def,
        Heap.get?_set_ne _ (Ne.symm hba), h2_def,
        Heap.get?_set_ne _ (Ne.symm hbp)]
    have hget4p : h4.get? p = some { pnd with next := some a } := by
      rw [h4_def, Heap.get?_set_ne _ (Ne.symm hpc), h3_def,
        Heap.get?_set_ne _ (Ne.symm hfreshp), h2_def]
      exact Heap.get?_set_self hget1p
    have hget4a : h4.get? a = some ⟨v, some p, some c⟩ := by
      rw [h4_def, Heap.get?_set_ne _ hfreshc, h3_def]
      exact Heap.get?_set_self (by
        rw [h2_def, Heap.get?_set_ne _ hfreshp]; exact hget1a)
    have hget3c : h3.get? c = some cnd := by
      rw [h3_def, Heap.get?_set_ne _ (Ne.symm hfreshc), h2_def,
        Heap.get?_set_ne _ hpc]
      exact hget1c
    have hget4c : h4.get? c = some { cnd with prev := some a } := by
      rw [h4_def]
      exact Heap.get?_set_self hget3c
    have hbound : ((ys ++ [p]) ++ c :: rest).length ≤ h.mem.length :=
      length_le_of_nodup_lt hr.nodup hvalid
    have hival : (i.toNat : Int) = i := Int.toNat_of_nonneg h0
    -- run the loop
    have heq : insertAt h d v i = .ok (true, h4,
        { d with _length := d._length + 1 }) := by
      rw [insertAt_eq_loop (by push_neg; exact ⟨h0, hi⟩) hi0]
      have ha1 : (h.alloc (⟨v, none, none⟩ : Node α)).1 = h1 := h1_def.symm
      have ha2 : (h.alloc (⟨v, none, none⟩ : Node α)).2 = a := rfl
      have hfuel1 : h1.mem.length + 1 = h.mem.length + 2 := by
        simp [h1_def]
      rw [ha1, ha2, hfuel1]
      have hloop : ∀ pmv : Bool,
          insertAtLoop h1 d a i pmv (some c) i (h.mem.length + 2 - (if pmv then ((ys ++ [p]) ++ c :: rest).length - 1 - i.toNat else i.toNat)) =
          .ok (true, h4, { d with _length := d._length + 1 }) := by
        intro pmv
        obtain ⟨fl, hfl⟩ : ∃ fl, h.mem.length + 2 - (if pmv then ((ys ++ [p]) ++ c :: rest).length - 1 - i.toNat else i.toNat) = fl + 1 := by
          cases pmv
          · exact ⟨h.mem.length + 1 - i.toNat, by simp; omega⟩
          · refine ⟨h.mem.length + 1
              - (((ys ++ [p]) ++ c :: rest).length - 1 - i.toNat), ?_⟩
            have hb2 := hbound
            simp at hb2 ⊢
            omega
        rw [hfl, insertAtLoop_found fl hget1c hprevc' hget1p hfreshp hfreshc
          hpc hget1a, ← h2_def, ← h3_def, ← h4_def]
      by_cases hpm : i > d._length / 2
      · rw [if_pos hpm, if_pos hpm, decide_eq_true hpm]
        have hstep : ∀ b nd idx fl, h1.get? b = some nd → idx ≠ i →
            insertAtLoop h1 d a i true (some b) idx (fl + 1)
              = insertAtLoop h1 d a i true nd.prev (idx - 1) fl := by
          intro b nd idx fl hget hidx
          have harith : idx + (-1 : Int) = idx - 1 := by ring
          simp [insertAtLoop, hget, hidx, harith]
        have h1L : h1.mem.length = h.mem.length + 1 := by simp [h1_def]
        have hwalk := walk_backward (insertAtLoop h1 d a i true) i hstep
          ((ys ++ [p]) ++ c :: rest) none none i.toNat (h1.mem.length + 1) c
          hchain1 hgetc_idx hival.symm (by omega)
        conv_lhs => rw [hr.tl, hlen, ← hfuel1]
        rw [hwalk, hfuel1]
        have := hloop true
        simpa using this
      · rw [if_neg hpm, if_neg hpm, decide_eq_false hpm]
        have hstep : ∀ b nd idx fl, h1.get? b = some nd → idx ≠ i →
            insertAtLoop h1 d a i false (some b) idx (fl + 1)
              = insertAtLoop h1 d a i false nd.next (idx + 1) fl := by
          intro b nd idx fl hget hidx
          simp [insertAtLoop, hget, hidx]
        have h1L : h1.mem.length = h.mem.length + 1 := by simp [h1_def]
        have hwalk := walk_forward (insertAtLoop h1 d a i false) i hstep
          ((ys ++ [p]) ++ c :: rest) none none 0 i.toNat (h1.mem.length + 1) c
          hchain1 hgetc_idx (by omega) (by omega)
        conv_lhs => rw [hr.hd, ← hfuel1]
        rw [hwalk, hfuel1]
        have := hloop false
        simpa using this
    refine ⟨h4, { d with _length := d._length + 1 },
      (ys ++ [p]) ++ a :: c :: rest, heq, ?_, ?_, ?_⟩
    · -- the new state satisfies the representation predicate
      have hagys : ∀ b ∈ ys, h4.get? b = h.get? b := by
        intro b hb
        rw [hget4 b (fun hbe => hpnotys (hbe ▸ hb))
          (fun hbe => by have := hvalid b (by simp [hb]); omega)
          (fun hbe => hcnotys (hbe ▸ hb)), hget1 b (by simp [hb])]
      have hagrest : ∀ b ∈ rest, h4.get? b = h.get? b := by
        intro b hb
        rw [hget4 b (fun hbe => hpnotrest (hbe ▸ hb))
          (fun hbe => by have := hvalid b (by simp [hb]); omega)
          (fun hbe => hcnotrest (hbe ▸ hb)), hget1 b (by simp [hb])]
      refine ⟨by simp, ?_, ?_, ?_, ?_, ?_⟩
      · rw [hr.hd]
        rcases List.eq_nil_or_concat' ys with rfl | ⟨zs, y, rfl⟩ <;> simp
      · rw [hr.tl]
        simp only [List.getLast?_append, List.getLast?_cons_cons]
      · -- no duplicate addresses
        have hanotin : a ∉ (ys ++ [p]) ++ c :: rest := by
          intro hmem
          have := hvalid a hmem
          omega
        rw [List.nodup_append]
        refine ⟨hnd_xs, ?_, ?_⟩
        · rw [List.nodup_cons]
          refine ⟨?_, hnd_cr⟩
          intro hmem
          exact hanotin (by simp at hmem ⊢; tauto)
        · intro b hb hb2
          rcases List.mem_cons.mp hb2 with rfl | hb3
          · exact hanotin (by simp at hb ⊢; tauto)
          · exact hdisj hb hb3
      · -- the chain with the new node spliced in
        rw [chainSeg_append (ys ++ [p])]
        constructor
        · rw [chainSeg_append ys]
          refine ⟨chainSeg_mono hagys hchain_ys, ?_⟩
          refine chainSeg_singleton.mpr ⟨{ pnd with next := some a }, hget4p,
            by simpa using hprevp, by simp⟩
        · refine ⟨⟨v, some p, some c⟩, hget4a, ?_, by simp, ?_⟩
          · simp [List.getLast?_concat]
          · refine ⟨{ cnd with prev := some a }, hget4c, rfl,
              by simpa using hnextc, ?_⟩
            exact chainSeg_mono hagrest hchain_rest
      · refine Or.inr ⟨by show (0:Int) < d._length + 1; omega, ?_⟩
        show d._length + 1 = _
        rw [hlen]
        push_cast [List.length_append, List.length_cons]
        ring
    · -- the abstract list gains `v` at position `i`
      have hvalp : nodeVal h4 p = nodeVal h p := by
        simp [nodeVal, hget4p, hgetp]
      have hvalc : nodeVal h4 c = nodeVal h c := by
        simp [nodeVal, hget4c, hgetc]
      have hvala : nodeVal h4 a = v := by
        simp [nodeVal, hget4a]
      have hagys : ∀ b ∈ ys, h4.get? b = h.get? b := by
        intro b hb
        rw [hget4 b (fun hbe => hpnotys (hbe ▸ hb))
          (fun hbe => by have := hvalid b (by simp [hb]); omega)
          (fun hbe => hcnotys (hbe ▸ hb)), hget1 b (by simp [hb])]
      have hagrest : ∀ b ∈ rest, h4.get? b = h.get? b := by
        intro b hb
        rw [hget4 b (fun hbe => hpnotrest (hbe ▸ hb))
          (fun hbe => by have := hvalid b (by simp [hb]); omega)
          (fun hbe => hcnotrest (hbe ▸ hb)), hget1 b (by simp [hb])]
      rw [absL, if_neg (by show ¬(d._length + 1 = 0); omega),
        absL, if_neg hpos.ne']
      have hrhs : (((ys ++ [p]) ++ c :: rest).map (nodeVal h)).insertIdx
          i.toNat v = ((ys ++ [p]).map (nodeVal h)) ++ v :: (c :: rest).map (nodeVal h) := by
        rw [List.map_append]
        have hlxs : ((ys ++ [p]).map (nodeVal h)).length = i.toNat := by
          simpa using hxslen
        rw [← hlxs, insertIdx_append_length]
      rw [hrhs, List.map_append]
      congr 1
      · rw [List.map_append, List.map_append]
        congr 1
        · exact map_nodeVal_congr hagys
        · simp [hvalp]
      · simp only [List.map_cons]
        rw [hvala, hvalc]
        congr 2
        exact map_nodeVal_congr hagrest
    · -- footprint: writes at `p` and `c`, allocation of `a`
      refine ⟨?_, ?_, ?_⟩
      · simp [h4_def, h3_def, h2_def, h1_def]
      · intro b hb hblt
        rw [hget4 b (fun hbe => hb (by simp [hbe]))
          (by omega) (fun hbe => hb (by simp [hbe])),
          h1_def, Heap.get?_alloc_lt hblt]
      · intro b hb
        simp only [List.mem_append, List.mem_cons, List.mem_singleton] at hb ⊢
        rcases hb with (hb | hb) | hb | hb | hb
        · exact Or.inl (Or.inl (Or.inl hb))
        · exact Or.inl (Or.inl (Or.inr hb))
        · subst hb; exact Or.inr le_rfl
        · exact Or.inl (Or.inr (Or.inl hb))
        · exact Or.inl (Or.inr (Or.inr hb))

/-- The found branch of the `removeAt` loop: unlink `current` (`c`), setting
`prev.next = next` and `next.prev = prev` in source order. -/
theorem removeAtLoop_found {h : Heap α} {d : Deque} {i : Int} {pm : Bool}
    {c p e : Nat} {cnd pnd end_ : Node α} (fl : Nat)
    (hgetc : h.get? c = some cnd) (hprevc : cnd.prev = some p)
    (hnextc : cnd.next = some e) (hgetp : h.get? p = some pnd)
    (hpe : p ≠ e) (hgete : h.get? e = some end_) :
    removeAtLoop h d i pm (some c) i (fl + 1) =
      .ok (cnd.val,
        (h.set p { pnd with next := cnd.next }).set e
          { end_ with prev := cnd.prev },
        { d with _length := d._length - 1 }) := by
  have hget1e : (h.set p { pnd with next := some e }).get? e = some end_ := by
    rw [Heap.get?_set_ne _ hpe]; exact hgete
  simp [removeAtLoop, hgetc, Heap.read, hprevc, hnextc, hgetp, hget1e]

/-- Unfolding of `removeAt` on an in-range interior index. -/
theorem removeAt_eq_loop {h : Heap α} {d : Deque} {i : Int}
    (hrange : ¬(i < 0 ∨ i ≥ d._length)) (hi0 : ¬i = 0)
    (hil : ¬i = d._length - 1) :
    removeAt h d i = removeAtLoop h d i (decide (i > d._length / 2))
      (if i > d._length / 2 then d.tail else d.head)
      (if i > d._length / 2 then d._length - 1 else 0) (h.mem.length + 1) := by
  rw [removeAt, if_neg hrange, if_neg hi0, if_neg hil]

theorem removeAt_spec {h : Heap α} {d : Deque} {addrs : List Nat}
    (hr : ReprA h d addrs) {i : Int} (h0 : 0 ≤ i) (hi : i < d._length) :
    ∃ v h' d' addrs', removeAt h d i = .ok (v, h', d') ∧ ReprA h' d' addrs' ∧
      (absL h d addrs)[i.toNat]? = some v ∧
      absL h' d' addrs' = (absL h d addrs).eraseIdx i.toNat ∧
      Footprint h addrs h' addrs' := by
  obtain ⟨hz, -⟩ | ⟨hpos, hlen⟩ := hr.len
  · omega
  by_cases hi0 : i = 0
  · -- index 0 delegates to popleft
    subst hi0
    obtain ⟨v, h', d', addrs', l', heq, hr', habs, habs', hfp⟩ :=
      popleft_spec hr hpos
    refine ⟨v, h', d', addrs', ?_, hr', ?_, ?_, hfp⟩
    · rw [removeAt, if_neg (by push_neg; exact ⟨le_rfl, hi⟩), if_pos rfl]
      exact heq
    · rw [habs]; simp
    · rw [habs, habs']
      simp [List.eraseIdx_zero]
  · by_cases hil : i = d._length - 1
    · -- last index delegates to pop
      obtain ⟨v, h', d', addrs', l', heq, hr', habs, habs', hfp⟩ :=
        pop_spec hr hpos
      have hl' : l'.length = i.toNat := by
        have h1 := absL_length hr
        rw [habs] at h1
        simp at h1
        omega
      refine ⟨v, h', d', addrs', ?_, hr', ?_, ?_, hfp⟩
      · rw [removeAt, if_neg (by push_neg; exact ⟨h0, hi⟩), if_neg hi0,
          if_pos hil]
        exact heq
      · rw [habs, ← hl']
        exact List.getElem?_concat_length l' v
      · rw [habs, habs', ← hl']
        have : l' ++ [v] = l' ++ v :: [] := rfl
        rw [this, eraseIdx_append_length]
        simp
    · -- interior removal
      have hige1 : 1 ≤ i := by omega
      have hlt : i.toNat < addrs.length := by omega
      obtain ⟨c, hgetc_idx⟩ : ∃ c, addrs[i.toNat]? = some c :=
        ⟨_, List.getElem?_eq_getElem hlt⟩
      obtain ⟨xs, rest, hsplit, hxslen⟩ := exists_splitAt hgetc_idx
      subst hsplit
      have hxs_ne : xs ≠ [] := by
        rintro rfl; simp at hxslen; omega
      obtain ⟨ys, p, rfl⟩ := List.eq_nil_or_concat' xs |>.resolve_left hxs_ne
      have hrest_ne : rest ≠ [] := by
        rintro rfl
        rw [hlen] at hil
        simp at hxslen hil
        omega
      obtain ⟨e, rest', rfl⟩ := List.exists_cons_of_ne_nil hrest_ne
      -- decompose the chain around the removal point
      obtain ⟨hchain_xs, hchain_cr⟩ := (chainSeg_append (ys ++ [p])).mp hr.chain
      obtain ⟨hchain_ys, hchain_p⟩ := (chainSeg_append ys).mp hchain_xs
      obtain ⟨pnd, hgetp, hprevp, hnextp⟩ := chainSeg_singleton.mp hchain_p
      obtain ⟨cnd, hgetc, hprevc, hnextc, hchain_rest⟩ := hchain_cr
      obtain ⟨end_, hgete, hpreve, hnexte, hchain_rest'⟩ := hchain_rest
      have hprevc' : cnd.prev = some p := by
        simpa [List.getLast?_concat] using hprevc
      have hnextc' : cnd.next = some e := by simpa using hnextc
      -- distinctness
      have hnd := hr.nodup
      rw [List.nodup_append] at hnd
      obtain ⟨hnd_xs, hnd_cr, hdisj⟩ := hnd
      have hpc : p ≠ c := fun hpceq =>
        hdisj (show p ∈ ys ++ [p] by simp) (show p ∈ c :: e :: rest' by simp [hpceq])
      have hpe : p ≠ e := fun hpeeq =>
        hdisj (show p ∈ ys ++ [p] by simp) (show p ∈ c :: e :: rest' by simp [hpeeq])
      have hce : c ≠ e := by
        have := List.nodup_cons.mp hnd_cr
        intro hceeq
        exact this.1 (by simp [hceeq])
      have hpnotys : p ∉ ys := by
        have hnd_xs' := hnd_xs
        rw [List.nodup_append] at hnd_xs'
        exact fun hmem => hnd_xs'.2.2 hmem (by simp)
      have henotys : e ∉ ys := fun hmem =>
        hdisj (show e ∈ ys ++ [p] by simp [hmem]) (by simp)
      have hcnotys : c ∉ ys := fun hmem =>
        hdisj (show c ∈ ys ++ [p] by simp [hmem]) (by simp)
      have hpnotrest' : p ∉ rest' := fun hmem =>
        hdisj (show p ∈ ys ++ [p] by simp) (show p ∈ c :: e :: rest' by simp [hmem])
      have hcnotrest' : c ∉ rest' := by
        have := List.nodup_cons.mp hnd_cr
        exact fun hmem => this.1 (by simp [hmem])
      have henotrest' : e ∉ rest' := by
        have := List.nodup_cons.mp (List.nodup_cons.mp hnd_cr).2
        exact this.1
      have hvalid := hr.valid
      -- the two heap writes of the unlink
      set h1 := h.set p { pnd with next := cnd.next } with h1_def
      set h2 := h1.set e { end_ with prev := cnd.prev } with h2_def
      have hget1p : h1.get? p = some { pnd with next := cnd.next } := by
        rw [h1_def]; exact Heap.get?_set_self hgetp
      have hget2p : h2.get? p = some { pnd with next := cnd.next } := by
        rw [h2_def, Heap.get?_set_ne _ (Ne.symm hpe)]; exact hget1p
      have hget1e : h1.get? e = some end_ := by
        rw [h1_def, Heap.get?_set_ne _ hpe]; exact hgete
      have hget2e : h2.get? e = some { end_ with prev := cnd.prev } := by
        rw [h2_def]
        exact Heap.get?_set_self hget1e
      have hget2 : ∀ b, b ≠ p → b ≠ e → h2.get? b = h.get? b := by
        intro b hbp hbe
        rw [h2_def, Heap.get?_set_ne _ (Ne.symm hbe), h1_def,
          Heap.get?_set_ne _ (Ne.symm hbp)]
      have hagys : ∀ b ∈ ys, h2.get? b = h.get? b := fun b hb =>
        hget2 b (fun hbe => hpnotys (hbe ▸ hb)) (fun hbe => henotys (hbe ▸ hb))
      have hagrest' : ∀ b ∈ rest', h2.get? b = h.get? b := fun b hb =>
        hget2 b (fun hbe => hpnotrest' (hbe ▸ hb))
          (fun hbe => henotrest' (hbe ▸ hb))
      have hbound : ((ys ++ [p]) ++ c :: e :: rest').length ≤ h.mem.length :=
        length_le_of_nodup_lt hr.nodup hvalid
      have hival : (i.toNat : Int) = i := Int.toNat_of_nonneg h0
      -- run the loop
      have heq : removeAt h d i = .ok (cnd.val, h2,
          { d with _length := d._length - 1 }) := by
        rw [removeAt_eq_loop (by push_neg; exact ⟨h0, hi⟩) hi0 hil]
        have hloop : ∀ pmv : Bool,
            removeAtLoop h d i pmv (some c) i (h.mem.length + 1 - (if pmv then ((ys ++ [p]) ++ c :: e :: rest').length - 1 - i.toNat else i.toNat)) =
            .ok (cnd.val, h2, { d with _length := d._length - 1 }) := by
          intro pmv
          obtain ⟨fl, hfl⟩ : ∃ fl, h.mem.length + 1 - (if pmv then ((ys ++ [p]) ++ c :: e :: rest').length - 1 - i.toNat else i.toNat) = fl + 1 := by
            cases pmv
            · exact ⟨h.mem.length - i.toNat, by simp; omega⟩
            · refine ⟨h.mem.length
                - (((ys ++ [p]) ++ c :: e :: rest').length - 1 - i.toNat), ?_⟩
              have hb2 := hbound
              simp at hb2 ⊢
              omega
          rw [hfl, removeAtLoop_found fl hgetc hprevc' hnextc' hgetp hpe hgete,
            ← h1_def, ← h2_def]
        by_cases hpm : i > d._length / 2
        · rw [if_pos hpm, if_pos hpm, decide_eq_true hpm]
          have hstep : ∀ b nd idx fl, h.get? b = some nd → idx ≠ i →
              removeAtLoop h d i true (some b) idx (fl + 1)
                = removeAtLoop h d i true nd.prev (idx - 1) fl := by
            intro b nd idx fl hget hidx
            have harith : idx + (-1 : Int) = idx - 1 := by ring
            simp [removeAtLoop, hget, hidx, harith]
          have hwalk := walk_backward (removeAtLoop h d i true) i hstep
            ((ys ++ [p]) ++ c :: e :: rest') none none i.toNat
            (h.mem.length + 1) c hr.chain hgetc_idx hival.symm (by omega)
          conv_lhs => rw [hr.tl, hlen]
          rw [hwalk]
          have := hloop true
          simpa using this
        · rw [if_neg hpm, if_neg hpm, decide_eq_false hpm]
          have hstep : ∀ b nd idx fl, h.get? b = some nd → idx ≠ i →
              removeAtLoop h d i false (some b) idx (fl + 1)
                = removeAtLoop h d i false nd.next (idx + 1) fl := by
            intro b nd idx fl hget hidx
            simp [removeAtLoop, hget, hidx]
          have hwalk := walk_forward (removeAtLoop h d i false) i hstep
            ((ys ++ [p]) ++ c :: e :: rest') none none 0 i.toNat
            (h.mem.length + 1) c hr.chain hgetc_idx (by omega) (by omega)
          conv_lhs => rw [hr.hd]
          rw [hwalk]
          have := hloop false
          simpa using this
      refine ⟨cnd.val, h2, { d with _length := d._length - 1 },
        (ys ++ [p]) ++ e :: rest', heq, ?_, ?_, ?_, ?_⟩
      · -- the new state satisfies the representation predicate
        refine ⟨by simp, ?_, ?_, ?_, ?_, ?_⟩
        · rw [hr.hd]
          rcases List.eq_nil_or_concat' ys with rfl | ⟨zs, y, rfl⟩ <;> simp
        · rw [hr.tl]
          simp only [List.getLast?_append, List.getLast?_cons_cons]
        · rw [List.nodup_append]
          refine ⟨hnd_xs, (List.nodup_cons.mp hnd_cr).2, ?_⟩
          intro b hb hb2
          exact hdisj hb (List.mem_cons.mpr (Or.inr hb2))
        · rw [chainSeg_append (ys ++ [p])]
          constructor
          · rw [chainSeg_append ys]
            refine ⟨chainSeg_mono hagys hchain_ys, ?_⟩
            refine chainSeg_singleton.mpr ⟨{ pnd with next := cnd.next },
              hget2p, by simpa using hprevp, by simp [hnextc']⟩
          · refine ⟨{ end_ with prev := cnd.prev }, hget2e, ?_,
              by simpa using hnexte, ?_⟩
            · simp [List.getLast?_concat, hprevc']
            · exact chainSeg_mono hagrest' hchain_rest'
        · refine Or.inr ⟨by show (0:Int) < d._length - 1; omega, ?_⟩
          show d._length - 1 = _
          rw [hlen]
          push_cast [List.length_append, List.length_cons]
          ring
      · rw [absL, if_neg hpos.ne', List.getElem?_map, hgetc_idx]
        simp [nodeVal, hgetc]
      · -- the abstract list loses position `i`
        have hvalp : nodeVal h2 p = nodeVal h p := by
          simp [nodeVal, hget2p, hgetp]
        have hvale : nodeVal h2 e = nodeVal h e := by
          simp [nodeVal, hget2e, hgete]
        rw [absL, if_neg (by show ¬(d._length - 1 = 0); omega),
          absL, if_neg hpos.ne']
        have hrhs : (((ys ++ [p]) ++ c :: e :: rest').map (nodeVal h)).eraseIdx
            i.toNat = ((ys ++ [p]).map (nodeVal h)) ++ (e :: rest').map (nodeVal h) := by
          rw [List.map_append]
          have hlxs : ((ys ++ [p]).map (nodeVal h)).length = i.toNat := by
            simpa using hxslen
          rw [List.map_cons, ← hlxs, eraseIdx_append_length]
        rw [hrhs, List.map_append]
        congr 1
        · rw [List.map_append, List.map_append]
          congr 1
          · exact map_nodeVal_congr hagys
          · simp [hvalp]
        · simp only [List.map_cons]
          rw [hvale]
          congr 1
          exact map_nodeVal_congr hagrest'
      · -- footprint: writes at `p` and `e` only
        refine ⟨?_, ?_, ?_⟩
        · simp [h2_def, h1_def]
        · intro b hb _
          exact hget2 b (fun hbe => hb (by simp [hbe]))
            (fun hbe => hb (by simp [hbe]))
        · intro b hb
          refine Or.inl ?_
          simp only [List.mem_append, List.mem_cons, List.mem_singleton] at hb ⊢
          tauto

/-! ### Specification of `reverse` and `toArray` -/

/-- Running the `reverse` loop flips the `prev`/`next` fields of exactly the
chain's nodes. -/
theorem reverseLoop_spec :
    ∀ (addrs : List Nat) {h : Heap α} {d : Deque} {p : Option Nat}
      (_ : chainSeg h p addrs none) (_ : addrs.Nodup) (fuel : Nat)
      (_ : addrs.length ≤ fuel),
    ∃ h', reverseLoop h d addrs.head? fuel = .ok (h', d) ∧
      (∀ a ∈ addrs, ∃ nd, h.get? a = some nd ∧
        h'.get? a = some ⟨nd.val, nd.next, nd.prev⟩) ∧
      (∀ a, a ∉ addrs → h'.get? a = h.get? a) ∧
      h'.mem.length = h.mem.length := by
  intro addrs
  induction addrs with
  | nil =>
    intro h d p _ _ fuel _
    exact ⟨h, by simp [reverseLoop], by simp, fun _ _ => rfl, rfl⟩
  | cons a rest ih =>
    intro h d p hchain hnd fuel hfuel
    obtain ⟨nd, hget, hprev, hnext, hrest⟩ := hchain
    obtain ⟨fl, rfl⟩ : ∃ fl, fuel = fl + 1 := ⟨fuel - 1, by simp at hfuel; omega⟩
    have hanotr : a ∉ rest := (List.nodup_cons.mp hnd).1
    set h1 := h.set a { nd with prev := nd.next, next := nd.prev } with h1_def
    have hag1 : ∀ b ∈ rest, h1.get? b = h.get? b := by
      intro b hb
      rw [h1_def, Heap.get?_set_ne _ (by rintro rfl; exact hanotr hb)]
    have hchain1 : chainSeg h1 (some a) rest none := chainSeg_mono hag1 hrest
    obtain ⟨h', hloop, hflip, hout, hlenm⟩ :=
      ih hchain1 (List.nodup_cons.mp hnd).2 fl (by simp at hfuel; omega)
    have hnext' : nd.next = rest.head? := by
      rw [hnext]
      cases rest <;> simp
    refine ⟨h', ?_, ?_, ?_, ?_⟩
    · simp only [List.head?_cons, reverseLoop, hget]
      rw [← h1_def, hnext', hloop]
    · intro b hb
      rcases List.mem_cons.mp hb with rfl | hb'
      · refine ⟨nd, hget, ?_⟩
        rw [hout b hanotr, h1_def]
        exact Heap.get?_set_self hget
      · obtain ⟨nd', hget', hflip'⟩ := hflip b hb'
        rw [hag1 b hb'] at hget'
        exact ⟨nd', hget', hflip'⟩
    · intro b hb
      rw [hout b (fun hmem => hb (by simp [hmem])), h1_def,
        Heap.get?_set_ne _ (by rintro rfl; exact hb (by simp))]
    · rw [hlenm, h1_def]
      simp

/-- Flipping every node of a doubly linked segment reverses it. -/
theorem chainSeg_flip_reverse :
    ∀ {addrs : List Nat} {h h' : Heap α} {p n : Option Nat},
    chainSeg h p addrs n →
    (∀ a ∈ addrs, ∃ nd, h.get? a = some nd ∧
      h'.get? a = some ⟨nd.val, nd.next, nd.prev⟩) →
    chainSeg h' n addrs.reverse p := by
  intro addrs
  induction addrs with
  | nil => intro h h' p n _ _; simp
  | cons a rest ih =>
    intro h h' p n hchain hflip
    obtain ⟨nd, hget, hprev, hnext, hrest⟩ := hchain
    obtain ⟨nd0, hget0, hflip0⟩ := hflip a (by simp)
    rw [hget] at hget0
    injection hget0 with hnd0
    subst hnd0
    have hrev : (a :: rest).reverse = rest.reverse ++ [a] := by simp
    rw [hrev, chainSeg_append rest.reverse]
    constructor
    · have := ih hrest (fun b hb => hflip b (by simp [hb]))
      simpa using this
    · refine chainSeg_singleton.mpr ⟨⟨nd.val, nd.next, nd.prev⟩, hflip0, ?_, ?_⟩
      · show nd.next = _
        rw [hnext, List.getLast?_reverse]
      · exact hprev

theorem reverse_spec {h : Heap α} {d : Deque} {addrs : List Nat}
    (hr : ReprA h d addrs) :
    ∃ h' d', reverse h d = .ok (h', d') ∧ ReprA h' d' addrs.reverse ∧
      absL h' d' addrs.reverse = (absL h d addrs).reverse ∧
      Footprint h addrs h' addrs.reverse := by
  have hbound : addrs.length ≤ h.mem.length :=
    length_le_of_nodup_lt hr.nodup hr.valid
  obtain ⟨h', hloop, hflip, hout, hlenm⟩ := reverseLoop_spec addrs hr.chain
    hr.nodup (h.mem.length + 1) (by omega)
  set d1 : Deque := { d with head := d.tail, tail := d.head } with d1_def
  have hvals : ∀ a ∈ addrs, nodeVal h' a = nodeVal h a := by
    intro a ha
    obtain ⟨nd, hget, hget'⟩ := hflip a ha
    simp [nodeVal, hget, hget']
  refine ⟨h', d1, ?_, ?_, ?_, ?_⟩
  · rw [reverse]
    show reverseLoop h d1 d.head (h.mem.length + 1) = _
    rw [hr.hd, hloop]
  · refine ⟨by simp [hr.ne], ?_, ?_, List.nodup_reverse.mpr hr.nodup, ?_, ?_⟩
    · show d.tail = _
      rw [hr.tl, List.head?_reverse]
    · show d.head = _
      rw [hr.hd, List.getLast?_reverse]
    · exact chainSeg_flip_reverse hr.chain hflip
    · rcases hr.len with ⟨h0, h1, hv⟩ | ⟨hpos, hlen⟩
      · exact Or.inl ⟨h0, by simpa using h1, fun a ha => by
          rw [hvals a (List.mem_reverse.mp ha)]
          exact hv a (List.mem_reverse.mp ha)⟩
      · exact Or.inr ⟨hpos, by simpa using hlen⟩
  · unfold absL
    show (if d._length = 0 then _ else _) = _
    split
    · rfl
    · rw [← List.map_reverse]
      exact List.map_congr_left fun a ha => hvals a (List.mem_reverse.mp ha)
  · refine ⟨le_of_eq hlenm.symm, fun a ha _ => hout a ha, ?_⟩
    intro a ha
    exact Or.inl (List.mem_reverse.mp ha)

theorem toArrayLoop_spec :
    ∀ (addrs : List Nat) {h : Heap α} {p : Option Nat}
      (_ : chainSeg h p addrs none) (fuel : Nat) (_ : addrs.length ≤ fuel),
    toArrayLoop h addrs.head? fuel = .ok (addrs.map (nodeVal h)) := by
  intro addrs
  induction addrs with
  | nil => intro h p _ fuel _; simp [toArrayLoop]
  | cons a rest ih =>
    intro h p hchain fuel hfuel
    obtain ⟨nd, hget, -, hnext, hrest⟩ := hchain
    obtain ⟨fl, rfl⟩ : ∃ fl, fuel = fl + 1 := ⟨fuel - 1, by simp at hfuel; omega⟩
    have hnext' : nd.next = rest.head? := by
      rw [hnext]; cases rest <;> simp
    simp only [List.head?_cons, toArrayLoop, hget, hnext']
    rw [ih hrest fl (by simp at hfuel; omega)]
    simp [nodeVal, hget]

theorem toArray_spec {h : Heap α} {d : Deque} {addrs : List Nat}
    (hr : ReprA h d addrs) : toArray h d = .ok (absL h d addrs) := by
  by_cases h0 : d._length = 0
  · rw [toArray, if_pos h0, absL, if_pos h0]
  · rw [toArray, if_neg h0, absL, if_neg h0, hr.hd]
    exact toArrayLoop_spec addrs hr.chain (h.mem.length + 1)
      (by have := length_le_of_nodup_lt hr.nodup hr.valid; omega)

/-! ### Specification of `copy` -/

/-- The `copy` loop pushes the source values onto the new deque, touching
only the new deque's nodes and fresh allocations. -/
theorem copyLoop_spec :
    ∀ (src : List Nat) {h : Heap α} {dN : Deque} {adN : List Nat}
      {p : Option Nat},
      chainSeg h p src none → ReprA h dN adN → (∀ b ∈ src, b ∉ adN) →
      ∀ fuel, src.length ≤ fuel →
    ∃ h' d' adN', copyLoop h dN src.head? fuel = .ok (h', d') ∧
      ReprA h' d' adN' ∧
      absL h' d' adN' = absL h dN adN ++ src.map (nodeVal h) ∧
      Footprint h adN h' adN' ∧
      (∀ b ∈ src, h'.get? b = h.get? b) := by
  intro src
  induction src with
  | nil =>
    intro h dN adN p _ hrN _ fuel _
    exact ⟨h, dN, adN, by simp [copyLoop], hrN, by simp,
      Footprint.refl h adN, by simp⟩
  | cons b rest ih =>
    intro h dN adN p hchain hrN hdisj fuel hfuel
    obtain ⟨nd, hget, -, hnext, hrest⟩ := hchain
    obtain ⟨fl, rfl⟩ : ∃ fl, fuel = fl + 1 := ⟨fuel - 1, by simp at hfuel; omega⟩
    have hblt : b < h.mem.length := Heap.lt_of_get? hget
    obtain ⟨h2, d2, adN2, heq2, hrN2, habs2, hfp2⟩ := push_spec hrN nd.val
    have hframe_src : ∀ r ∈ b :: rest, h2.get? r = h.get? r := by
      intro r hr'
      have hrval : r < h.mem.length := by
        rcases List.mem_cons.mp hr' with rfl | hr''
        · exact hblt
        · obtain ⟨nd', hget'⟩ := chainSeg_get hrest hr''
          exact Heap.lt_of_get? hget'
      exact hfp2.frame r (hdisj r hr') hrval
    have hget2b : h2.get? b = some nd := by
      rw [hframe_src b (by simp)]; exact hget
    have hchain2 : chainSeg h2 (some b) rest none :=
      chainSeg_mono (fun r hr' => hframe_src r (by simp [hr'])) hrest
    have hdisj2 : ∀ r ∈ rest, r ∉ adN2 := by
      intro r hr' hmem
      rcases hfp2.sub r hmem with hin | hge
      · exact hdisj r (by simp [hr']) hin
      · obtain ⟨nd', hget'⟩ := chainSeg_get hrest hr'
        have := Heap.lt_of_get? hget'
        omega
    obtain ⟨h', d', adN', hloop, hrN', habs', hfp', hframe'⟩ :=
      ih hchain2 hrN2 hdisj2 fl (by simp at hfuel; omega)
    have hnext' : nd.next = rest.head? := by
      rw [hnext]; cases rest <;> simp
    refine ⟨h', d', adN', ?_, hrN', ?_, hfp2.trans hfp', ?_⟩
    · simp only [List.head?_cons, copyLoop, hget]
      rw [heq2]
      show (match h2.get? b with
        | none => Except.error "InvalidAddress"
        | some nd1 => copyLoop h2 d2 nd1.next fl) = _
      rw [hget2b]
      show copyLoop h2 d2 nd.next fl = _
      rw [hnext', hloop]
    · rw [habs', habs2]
      have hmaps : rest.map (nodeVal h2) = rest.map (nodeVal h) :=
        map_nodeVal_congr fun r hr' => hframe_src r (by simp [hr'])
      rw [hmaps]
      simp [nodeVal, hget]
    · intro r hr'
      have hrval : r < h.mem.length := by
        rcases List.mem_cons.mp hr' with rfl | hr''
        · exact hblt
        · obtain ⟨nd', hget'⟩ := chainSeg_get hrest hr''
          exact Heap.lt_of_get? hget'
      have hrnot2 : r ∉ adN2 := by
        intro hmem
        rcases hfp2.sub r hmem with hin | hge
        · exact hdisj r hr' hin
        · omega
      have hext2 := hfp2.ext
      rw [hfp'.frame r hrnot2 (by omega), hframe_src r hr']

theorem copy_spec {h : Heap α} {d : Deque} {addrs : List Nat}
    (hr : ReprA h d addrs) :
    ∃ h' d2 addrs2, copy h d = .ok (h', d2) ∧
      ReprA h' d2 addrs2 ∧ absL h' d2 addrs2 = absL h d addrs ∧
      ReprA h' d addrs ∧ absL h' d addrs = absL h d addrs ∧
      (∀ b ∈ addrs2, h.mem.length ≤ b) ∧
      h.mem.length ≤ h'.mem.length := by
  obtain ⟨hr0, habs0, hframe0, hlen0⟩ := mkDeque_spec (h := h)
  by_cases h0 : d._length = 0
  · refine ⟨(mkDeque h).1, (mkDeque h).2, [h.mem.length], ?_, hr0, ?_, ?_, ?_,
      ?_, ?_⟩
    · rw [copy, if_pos h0]
    · rw [habs0, absL, if_pos h0]
    · exact hr.mono fun a ha => hframe0 a (hr.valid a ha)
    · rw [absL_mono fun a ha => hframe0 a (hr.valid a ha)]
    · intro b hb
      rcases List.mem_singleton.mp hb with rfl
      exact le_rfl
    · omega
  · have hchain1 : chainSeg (mkDeque h).1 none addrs none :=
      chainSeg_mono (fun a ha => hframe0 a (hr.valid a ha)) hr.chain
    have hdisj : ∀ b ∈ addrs, b ∉ [h.mem.length] := by
      intro b hb hmem
      have hbl := hr.valid b hb
      rcases List.mem_singleton.mp hmem with rfl
      omega
    have hbound : addrs.length ≤ h.mem.length :=
      length_le_of_nodup_lt hr.nodup hr.valid
    obtain ⟨h', d', adN', hloop, hrN', habs', hfp', hframe'⟩ :=
      copyLoop_spec addrs hchain1 hr0 hdisj ((mkDeque h).1.mem.length + 1)
        (by rw [hlen0]; omega)
    refine ⟨h', d', adN', ?_, hrN', ?_, ?_, ?_, ?_, ?_⟩
    · rw [copy, if_neg h0]
      show copyLoop (mkDeque h).1 (mkDeque h).2 d.head
        ((mkDeque h).1.mem.length + 1) = _
      rw [hr.hd]
      exact hloop
    · rw [habs', habs0]
      have : addrs.map (nodeVal (mkDeque h).1) = addrs.map (nodeVal h) :=
        map_nodeVal_congr fun a ha => hframe0 a (hr.valid a ha)
      rw [this, absL, if_neg h0]
      simp
    · refine hr.mono fun a ha => ?_
      rw [hframe' a ha, hframe0 a (hr.valid a ha)]
    · exact absL_mono fun a ha => by
        rw [hframe' a ha, hframe0 a (hr.valid a ha)]
    · intro b hb
      rcases hfp'.sub b hb with hin | hge
      · rcases List.mem_singleton.mp hin with rfl
        exact le_rfl
      · omega
    · have := hfp'.ext
      omega

/-! ### Specification of `rotate` -/

/-- The list-level effect of one `pushLeft(pop())` step. -/
def moveLastToFront {β : Type} (l : List β) : List β :=
  match l.getLast? with
  | none => l
  | some v => v :: l.dropLast

/-- The list-level effect of one `push(popleft())` step. -/
def moveFirstToBack {β : Type} (l : List β) : List β :=
  match l with
  | [] => []
  | v :: rest => rest ++ [v]

theorem moveLastToFront_concat {β : Type} (l : List β) (v : β) :
    moveLastToFront (l ++ [v]) = v :: l := by
  simp [moveLastToFront, List.getLast?_concat]

theorem moveFirstToBack_cons {β : Type} (l : List β) (v : β) :
    moveFirstToBack (v :: l) = l ++ [v] := rfl

theorem moveFirstToBack_moveLastToFront {β : Type} (l : List β) :
    moveFirstToBack (moveLastToFront l) = l := by
  rcases List.eq_nil_or_concat' l with rfl | ⟨xs, v, rfl⟩
  · rfl
  · rw [moveLastToFront_concat, moveFirstToBack_cons]

theorem moveLastToFront_moveFirstToBack {β : Type} (l : List β) :
    moveLastToFront (moveFirstToBack l) = l := by
  cases l with
  | nil => rfl
  | cons v rest => rw [moveFirstToBack_cons, moveLastToFront_concat]

theorem moveFirstToBack_iter_moveLastToFront_iter {β : Type} (m : Nat)
    (l : List β) :
    moveFirstToBack^[m] (moveLastToFront^[m] l) = l := by
  induction m generalizing l with
  | zero => rfl
  | succ m ih =>
    rw [Function.iterate_succ_apply' (f := moveLastToFront),
      Function.iterate_succ_apply (f := moveFirstToBack),
      moveFirstToBack_moveLastToFront, ih]

theorem moveLastToFront_iter_moveFirstToBack_iter {β : Type} (m : Nat)
    (l : List β) :
    moveLastToFront^[m] (moveFirstToBack^[m] l) = l := by
  induction m generalizing l with
  | zero => rfl
  | succ m ih =>
    rw [Function.iterate_succ_apply' (f := moveFirstToBack),
      Function.iterate_succ_apply (f := moveLastToFront),
      moveLastToFront_moveFirstToBack, ih]

theorem rotateRightLoop_spec :
    ∀ (m : Nat) {h : Heap α} {d : Deque} {addrs : List Nat},
      ReprA h d addrs → 0 < d._length →
    ∃ h' d' addrs', rotateRightLoop h d m = .ok (h', d') ∧
      ReprA h' d' addrs' ∧
      absL h' d' addrs' = moveLastToFront^[m] (absL h d addrs) ∧
      d'._length = d._length ∧ Footprint h addrs h' addrs' := by
  intro m
  induction m with
  | zero =>
    intro h d addrs hr _
    exact ⟨h, d, addrs, rfl, hr, rfl, rfl, Footprint.refl h addrs⟩
  | succ m ih =>
    intro h d addrs hr hpos
    obtain ⟨v, h1, d1, addrs1, l', heq1, hr1, habs, habs1, hfp1⟩ :=
      pop_spec hr hpos
    obtain ⟨h2, d2, addrs2, heq2, hr2, habs2, hfp2⟩ := pushLeft_spec hr1 v
    have habs2' : absL h2 d2 addrs2 = moveLastToFront (absL h d addrs) := by
      rw [habs2, habs1, habs, moveLastToFront_concat]
    have hlen2 : d2._length = d._length := by
      have e1 := absL_length hr
      have e2 := absL_length hr2
      rw [habs2'] at e2
      rw [habs] at e1
      have : (moveLastToFront (absL h d addrs)).length
          = (absL h d addrs).length := by
        rw [habs]
        rw [moveLastToFront_concat]
        simp
      rw [this, habs] at e2
      omega
    have hpos2 : 0 < d2._length := by omega
    obtain ⟨h', d', addrs', hloop, hr', habs', hlen', hfp'⟩ := ih hr2 hpos2
    refine ⟨h', d', addrs', ?_, hr', ?_, by omega, (hfp1.trans hfp2).trans hfp'⟩
    · simp only [rotateRightLoop, heq1, ok_bind, heq2]
      exact hloop
    · rw [habs', habs2', Function.iterate_succ_apply]

theorem rotateLeftLoop_spec :
    ∀ (m : Nat) {h : Heap α} {d : Deque} {addrs : List Nat},
      ReprA h d addrs → 0 < d._length →
    ∃ h' d' addrs', rotateLeftLoop h d m = .ok (h', d') ∧
      ReprA h' d' addrs' ∧
      absL h' d' addrs' = moveFirstToBack^[m] (absL h d addrs) ∧
      d'._length = d._length ∧ Footprint h addrs h' addrs' := by
  intro m
  induction m with
  | zero =>
    intro h d addrs hr _
    exact ⟨h, d, addrs, rfl, hr, rfl, rfl, Footprint.refl h addrs⟩
  | succ m ih =>
    intro h d addrs hr hpos
    obtain ⟨v, h1, d1, addrs1, l', heq1, hr1, habs, habs1, hfp1⟩ :=
      popleft_spec hr hpos
    obtain ⟨h2, d2, addrs2, heq2, hr2, habs2, hfp2⟩ := push_spec hr1 v
    have habs2' : absL h2 d2 addrs2 = moveFirstToBack (absL h d addrs) := by
      rw [habs2, habs1, habs, moveFirstToBack_cons]
    have hlen2 : d2._length = d._length := by
      have e1 := absL_length hr
      have e2 := absL_length hr2
      rw [habs2'] at e2
      rw [habs] at e1
      have : (moveFirstToBack (absL h d addrs)).length
          = (absL h d addrs).length := by
        rw [habs, moveFirstToBack_cons]
        simp
      rw [this, habs] at e2
      omega
    have hpos2 : 0 < d2._length := by omega
    obtain ⟨h', d', addrs', hloop, hr', habs', hlen', hfp'⟩ := ih hr2 hpos2
    refine ⟨h', d', addrs', ?_, hr', ?_, by omega, (hfp1.trans hfp2).trans hfp'⟩
    · simp only [rotateLeftLoop, heq1, ok_bind, heq2]
      exact hloop
    · rw [habs', habs2', Function.iterate_succ_apply]

/-- JS `%` truncates toward zero; negating the dividend negates the
result. -/
theorem tmod_neg_left (a b : Int) : (-a).tmod b = -(a.tmod b) := by
  simp [Int.tmod_def, Int.neg_tdiv, mul_neg, neg_sub]
  ring

/-- Zeta-free unfolding of `optimizeSteps`. -/
theorem optimizeSteps_def (x n : Int) :
    optimizeSteps x n = if |x.tmod n| > n / 2 then
      (if x.tmod n > 0 then x.tmod n - n else x.tmod n + n)
    else x.tmod n := rfl

theorem optimizeSteps_neg {k n : Int} (hn : 1 ≤ n) :
    optimizeSteps (-k) n = -optimizeSteps k n := by
  rw [optimizeSteps_def, optimizeSteps_def, tmod_neg_left, abs_neg]
  rcases abs_cases (k.tmod n) with ⟨he, hsign⟩ | ⟨he, hsign⟩ <;>
    rw [he] <;> split_ifs <;> omega

/-- `tmod` agrees with the mathematical remainder modulo `n`. -/
theorem tmod_emod (s n : Int) : s.tmod n % n = s % n := by
  have h := Int.tmod_add_tdiv s n
  have h2 : s.tmod n = s + n * (-(s.tdiv n)) := by linarith
  rw [h2, Int.add_mul_emod_self_left]

theorem abs_tmod_lt {s n : Int} (hn : 1 ≤ n) : |s.tmod n| < n := by
  rcases le_or_lt 0 s with hs | hs
  · rw [abs_of_nonneg (Int.tmod_nonneg n hs)]
    exact Int.tmod_lt_of_pos s (by omega)
  · have hneg := tmod_neg_left (-s) n
    rw [neg_neg] at hneg
    rw [hneg, abs_neg, abs_of_nonneg (Int.tmod_nonneg n (by omega))]
    exact Int.tmod_lt_of_pos (-s) (by omega)

/-- The normalised step count is congruent to the requested one modulo the
length, and at most half the length in magnitude. -/
theorem optimizeSteps_spec {s n : Int} (hn : 1 ≤ n) :
    optimizeSteps s n % n = s % n ∧ 2 * |optimizeSteps s n| ≤ n := by
  have htm := tmod_emod s n
  have hb := abs_tmod_lt (s := s) hn
  have hadd : (s.tmod n + n) % n = s.tmod n % n := by
    have h1 := Int.add_mul_emod_self_left (s.tmod n) n 1
    rwa [mul_one] at h1
  rw [optimizeSteps_def]
  rcases abs_cases (s.tmod n) with ⟨habs, hsign⟩ | ⟨habs, hsign⟩ <;>
    rw [habs] at hb ⊢ <;> split_ifs with h1 h2 <;> constructor <;>
    first
      | (rw [Int.emod_sub_cancel]; exact htm)
      | (rw [hadd]; exact htm)
      | exact htm
      | (rcases abs_cases (s.tmod n - n) with ⟨h3, h4⟩ | ⟨h3, h4⟩ <;>
          rw [h3] <;> omega)
      | (rcases abs_cases (s.tmod n + n) with ⟨h3, h4⟩ | ⟨h3, h4⟩ <;>
          rw [h3] <;> omega)
      | (rw [habs]; omega)

/-- Unfolding of `rotate` on a non-trivial call. -/
theorem rotate_eq {h : Heap α} {d : Deque} (k : Int) (hk : ¬k = 0)
    (hl : ¬d._length = 0) :
    rotate h d k = if optimizeSteps k d._length > 0 then
      rotateRightLoop h d (optimizeSteps k d._length).toNat
    else rotateLeftLoop h d (-optimizeSteps k d._length).toNat := by
  rw [rotate, if_neg hk, if_neg hl]

/-- `rotate k` then `rotate (-k)` restores the element sequence. -/
theorem rotate_roundtrip {h : Heap α} {d : Deque} {addrs : List Nat}
    (hr : ReprA h d addrs) (k : Int) :
    ∃ h1 d1 h2 d2, rotate h d k = .ok (h1, d1) ∧
      rotate h1 d1 (-k) = .ok (h2, d2) ∧
      toArray h2 d2 = toArray h d := by
  by_cases hk : k = 0
  · subst hk
    exact ⟨h, d, h, d, rfl, by rw [show -(0:Int) = 0 by ring]; rfl, rfl⟩
  by_cases hl : d._length = 0
  · refine ⟨h, d, h, d, ?_, ?_, rfl⟩
    · rw [rotate, if_neg hk, if_pos hl]
    · rw [rotate, if_neg (by simpa using hk), if_pos hl]
  have hnk : ¬(-k = 0) := by simpa using hk
  have hpos : 0 < d._length := by
    rcases hr.len with ⟨h0, -⟩ | ⟨hp, -⟩
    · exact absurd h0 hl
    · exact hp
  have hn1 : 1 ≤ d._length := hpos
  set s := optimizeSteps k d._length with hs_def
  rcases lt_trichotomy s 0 with hsneg | hszero | hspos
  · -- negative steps: left rotation, then right rotation back
    obtain ⟨h1, d1, addrs1, hloop1, hr1, habs1, hlen1, -⟩ :=
      rotateLeftLoop_spec (-s).toNat hr hpos
    have heq1 : rotate h d k = .ok (h1, d1) := by
      rw [rotate_eq k hk hl, if_neg (by omega), ← hs_def]
      exact hloop1
    have hs' : optimizeSteps (-k) d1._length = -s := by
      rw [hlen1, ← optimizeSteps_neg hn1]
    obtain ⟨h2, d2, addrs2, hloop2, hr2, habs2, hlen2, -⟩ :=
      rotateRightLoop_spec (-s).toNat hr1 (by omega)
    have heq2 : rotate h1 d1 (-k) = .ok (h2, d2) := by
      rw [rotate_eq (-k) hnk (by omega), hs', if_pos (by omega)]
      exact hloop2
    refine ⟨h1, d1, h2, d2, heq1, heq2, ?_⟩
    rw [toArray_spec hr2, toArray_spec hr, habs2, habs1,
      moveLastToFront_iter_moveFirstToBack_iter]
  · -- zero steps after normalisation: both rotations are no-ops
    obtain ⟨h1, d1, addrs1, hloop1, hr1, habs1, hlen1, -⟩ :=
      rotateLeftLoop_spec (-s).toNat hr hpos
    have heq1 : rotate h d k = .ok (h1, d1) := by
      rw [rotate_eq k hk hl, if_neg (by omega), ← hs_def]
      exact hloop1
    have hs' : optimizeSteps (-k) d1._length = -s := by
      rw [hlen1, ← optimizeSteps_neg hn1]
    obtain ⟨h2, d2, addrs2, hloop2, hr2, habs2, hlen2, -⟩ :=
      rotateLeftLoop_spec (-(-s)).toNat hr1 (by omega)
    have heq2 : rotate h1 d1 (-k) = .ok (h2, d2) := by
      rw [rotate_eq (-k) hnk (by omega), hs', if_neg (by omega)]
      exact hloop2
    refine ⟨h1, d1, h2, d2, heq1, heq2, ?_⟩
    rw [toArray_spec hr2, toArray_spec hr, habs2, habs1]
    rw [show (-s).toNat = 0 by omega, show (-(-s)).toNat = 0 by omega]
    rfl
  · -- positive steps: right rotation, then left rotation back
    obtain ⟨h1, d1, addrs1, hloop1, hr1, habs1, hlen1, -⟩ :=
      rotateRightLoop_spec s.toNat hr hpos
    have heq1 : rotate h d k = .ok (h1, d1) := by
      rw [rotate_eq k hk hl, if_pos (by omega), ← hs_def]
      exact hloop1
    have hs' : optimizeSteps (-k) d1._length = -s := by
      rw [hlen1, ← optimizeSteps_neg hn1]
    obtain ⟨h2, d2, addrs2, hloop2, hr2, habs2, hlen2, -⟩ :=
      rotateLeftLoop_spec (-(-s)).toNat hr1 (by omega)
    have heq2 : rotate h1 d1 (-k) = .ok (h2, d2) := by
      rw [rotate_eq (-k) hnk (by omega), hs', if_neg (by omega)]
      exact hloop2
    refine ⟨h1, d1, h2, d2, heq1, heq2, ?_⟩
    rw [toArray_spec hr2, toArray_spec hr, habs2, habs1]
    rw [show (-(-s)).toNat = s.toNat by omega]
    rw [moveFirstToBack_iter_moveLastToFront_iter]

/-- `rotate` always succeeds on a well-formed deque and preserves the
representation predicate and the footprint discipline. -/
theorem rotate_spec {h : Heap α} {d : Deque} {addrs : List Nat}
    (hr : ReprA h d addrs) (k : Int) :
    ∃ h' d' addrs', rotate h d k = .ok (h', d') ∧ ReprA h' d' addrs' ∧
      Footprint h addrs h' addrs' := by
  by_cases hk : k = 0
  · exact ⟨h, d, addrs, by rw [hk]; rfl, hr, Footprint.refl h addrs⟩
  by_cases hl : d._length = 0
  · exact ⟨h, d, addrs, by rw [rotate, if_neg hk, if_pos hl], hr,
      Footprint.refl h addrs⟩
  have hpos : 0 < d._length := by
    rcases hr.len with ⟨h0, -⟩ | ⟨hp, -⟩
    · exact absurd h0 hl
    · exact hp
  rw [rotate_eq k hk hl]
  by_cases hs : optimizeSteps k d._length > 0
  · obtain ⟨h', d', addrs', hloop, hr', -, -, hfp⟩ :=
      rotateRightLoop_spec (optimizeSteps k d._length).toNat hr hpos
    exact ⟨h', d', addrs', by rw [if_pos hs]; exact hloop, hr', hfp⟩
  · obtain ⟨h', d', addrs', hloop, hr', -, -, hfp⟩ :=
      rotateLeftLoop_spec (-optimizeSteps k d._length).toNat hr hpos
    exact ⟨h', d', addrs', by rw [if_neg hs]; exact hloop, hr', hfp⟩

/-! ### The structural invariant, and its preservation by every operation -/

/-- Out-of-range index: `at` throws. -/
theorem at_out_of_range {h : Heap α} {d : Deque} {i : Int}
    (hout : i ≥ d._length ∨ i < 0) : «at» h d i = .error rangeErrorMsg := by
  rw [«at», if_pos hout]

/-- Out-of-range index: `insertAt` throws. -/
theorem insertAt_out_of_range {h : Heap α} {d : Deque} (v : Option α)
    {i : Int} (hout : i < 0 ∨ i ≥ d._length) :
    insertAt h d v i = .error rangeErrorMsg := by
  rw [insertAt, if_pos hout]

/-- Out-of-range index: `removeAt` throws. -/
theorem removeAt_out_of_range {h : Heap α} {d : Deque} {i : Int}
    (hout : i < 0 ∨ i ≥ d._length) :
    removeAt h d i = .error rangeErrorMsg := by
  rw [removeAt, if_pos hout]

/-- One state-changing operation of the deque interface. -/
inductive Mutation (α : Type) where
  | push (v : Option α)
  | pushLeft (v : Option α)
  | pop
  | popleft
  | insertAt (v : Option α) (i : Int)
  | removeAt (i : Int)
  | reverse
  | rotate (k : Int)
  | clear

/-- Run a state-changing operation, returning the new state. -/
def applyMutation (m : Mutation α) (h : Heap α) (d : Deque) :
    Except String (Heap α × Deque) :=
  match m with
  | .push v => push h d v
  | .pushLeft v => pushLeft h d v
  | .pop => do let (_, h', d') ← pop h d; .ok (h', d')
  | .popleft => do let (_, h', d') ← popleft h d; .ok (h', d')
  | .insertAt v i => do let (_, h', d') ← insertAt h d v i; .ok (h', d')
  | .removeAt i => do let (_, h', d') ← removeAt h d i; .ok (h', d')
  | .reverse => reverse h d
  | .rotate k => rotate h d k
  | .clear => clear h d

/-- Every state-changing operation that completes preserves the
representation predicate, within its footprint. -/
theorem applyMutation_spec {h : Heap α} {d : Deque} {addrs : List Nat}
    (hr : ReprA h d addrs) (m : Mutation α) {h' : Heap α} {d' : Deque}
    (heq : applyMutation m h d = .ok (h', d')) :
    ∃ addrs', ReprA h' d' addrs' ∧ Footprint h addrs h' addrs' := by
  cases m with
  | push v =>
    obtain ⟨h2, d2, addrs2, heq2, hr2, -, hfp⟩ := push_spec hr v
    rw [show applyMutation (.push v) h d = push h d v from rfl, heq2] at heq
    injection heq with hpair
    obtain ⟨rfl, rfl⟩ := Prod.mk.injEq .. ▸ Prod.ext_iff.mp hpair
    exact ⟨addrs2, hr2, hfp⟩
  | pushLeft v =>
    obtain ⟨h2, d2, addrs2, heq2, hr2, -, hfp⟩ := pushLeft_spec hr v
    rw [show applyMutation (.pushLeft v) h d = pushLeft h d v from rfl,
      heq2] at heq
    injection heq with hpair
    obtain ⟨rfl, rfl⟩ := Prod.mk.injEq .. ▸ Prod.ext_iff.mp hpair
    exact ⟨addrs2, hr2, hfp⟩
  | pop =>
    by_cases h0 : d._length = 0
    · rw [show applyMutation .pop h d = (do let (_, h', d') ← pop h d; .ok (h', d')) from rfl,
        pop_empty h0] at heq
      simp only [ok_bind] at heq
      injection heq with hpair
      obtain ⟨rfl, rfl⟩ := Prod.mk.injEq .. ▸ Prod.ext_iff.mp hpair
      exact ⟨addrs, hr, Footprint.refl h addrs⟩
    · have hpos : 0 < d._length := by
        have := hr.len_nonneg; omega
      obtain ⟨v, h2, d2, addrs2, l', heq2, hr2, -, -, hfp⟩ := pop_spec hr hpos
      rw [show applyMutation .pop h d = (do let (_, h', d') ← pop h d; .ok (h', d')) from rfl,
        heq2] at heq
      simp only [ok_bind] at heq
      injection heq with hpair
      obtain ⟨rfl, rfl⟩ := Prod.mk.injEq .. ▸ Prod.ext_iff.mp hpair
      exact ⟨addrs2, hr2, hfp⟩
  | popleft =>
    by_cases h0 : d._length = 0
    · rw [show applyMutation .popleft h d = (do let (_, h', d') ← popleft h d; .ok (h', d')) from rfl,
        popleft_empty h0] at heq
      simp only [ok_bind] at heq
      injection heq with hpair
      obtain ⟨rfl, rfl⟩ := Prod.mk.injEq .. ▸ Prod.ext_iff.mp hpair
      exact ⟨addrs, hr, Footprint.refl h addrs⟩
    · have hpos : 0 < d._length := by
        have := hr.len_nonneg; omega
      obtain ⟨v, h2, d2, addrs2, l', heq2, hr2, -, -, hfp⟩ :=
        popleft_spec hr hpos
      rw [show applyMutation .popleft h d = (do let (_, h', d') ← popleft h d; .ok (h', d')) from rfl,
        heq2] at heq
      simp only [ok_bind] at heq
      injection heq with hpair
      obtain ⟨rfl, rfl⟩ := Prod.mk.injEq .. ▸ Prod.ext_iff.mp hpair
      exact ⟨addrs2, hr2, hfp⟩
  | insertAt v i =>
    by_cases hrange : 0 ≤ i ∧ i < d._length
    · obtain ⟨h2, d2, addrs2, heq2, hr2, -, hfp⟩ :=
        insertAt_spec hr v hrange.1 hrange.2
      rw [show applyMutation (.insertAt v i) h d = (do let (_, h', d') ← insertAt h d v i; .ok (h', d')) from rfl,
        heq2] at heq
      simp only [ok_bind] at heq
      injection heq with hpair
      obtain ⟨rfl, rfl⟩ := Prod.mk.injEq .. ▸ Prod.ext_iff.mp hpair
      exact ⟨addrs2, hr2, hfp⟩
    · rw [show applyMutation (.insertAt v i) h d = (do let (_, h', d') ← insertAt h d v i; .ok (h', d')) from rfl,
        insertAt_out_of_range v (by omega)] at heq
      simp only [error_bind] at heq
      exact absurd heq (by simp)
  | removeAt i =>
    by_cases hrange : 0 ≤ i ∧ i < d._length
    · obtain ⟨v, h2, d2, addrs2, heq2, hr2, -, -, hfp⟩ :=
        removeAt_spec hr hrange.1 hrange.2
      rw [show applyMutation (.removeAt i) h d = (do let (_, h', d') ← removeAt h d i; .ok (h', d')) from rfl,
        heq2] at heq
      simp only [ok_bind] at heq
      injection heq with hpair
      obtain ⟨rfl, rfl⟩ := Prod.mk.injEq .. ▸ Prod.ext_iff.mp hpair
      exact ⟨addrs2, hr2, hfp⟩
    · rw [show applyMutation (.removeAt i) h d = (do let (_, h', d') ← removeAt h d i; .ok (h', d')) from rfl,
        removeAt_out_of_range (by omega)] at heq
      simp only [error_bind] at heq
      exact absurd heq (by simp)
  | reverse =>
    obtain ⟨h2, d2, heq2, hr2, -, hfp⟩ := reverse_spec hr
    rw [show applyMutation .reverse h d = reverse h d from rfl, heq2] at heq
    injection heq with hpair
    obtain ⟨rfl, rfl⟩ := Prod.mk.injEq .. ▸ Prod.ext_iff.mp hpair
    exact ⟨addrs.reverse, hr2, hfp⟩
  | rotate k =>
    obtain ⟨h2, d2, addrs2, heq2, hr2, hfp⟩ := rotate_spec hr k
    rw [show applyMutation (.rotate k) h d = rotate h d k from rfl,
      heq2] at heq
    injection heq with hpair
    obtain ⟨rfl, rfl⟩ := Prod.mk.injEq .. ▸ Prod.ext_iff.mp hpair
    exact ⟨addrs2, hr2, hfp⟩
  | clear =>
    obtain ⟨h2, d2, s, heq2, hr2, -, hfp⟩ := clear_spec hr
    rw [show applyMutation .clear h d = clear h d from rfl, heq2] at heq
    injection heq with hpair
    obtain ⟨rfl, rfl⟩ := Prod.mk.injEq .. ▸ Prod.ext_iff.mp hpair
    exact ⟨[s], hr2, hfp⟩

/-- The structural invariant exactly as the specification states it:
`length` is never negative; an empty deque's `head` and `tail` are one
sentinel node holding no value; and for `length ≥ 2` the node chain from
`head` to `tail` has `length` nodes, with `head.prev` and `tail.next`
absent, consecutive nodes linked by `next` forward and by `prev` backward
(all of which `chainSeg _ none _ none` packages). -/
def StructInv (h : Heap α) (d : Deque) : Prop :=
  0 ≤ d._length ∧
  (d._length = 0 → ∃ s, d.head = some s ∧ d.tail = some s ∧
    ∃ nd, h.get? s = some nd ∧ nd.val = none) ∧
  (2 ≤ d._length → ∃ addrs : List Nat, (addrs.length : Int) = d._length ∧
    d.head = addrs.head? ∧ d.tail = addrs.getLast? ∧
    chainSeg h none addrs none)

theorem Inv.structInv {h : Heap α} {d : Deque} (hInv : Inv h d) :
    StructInv h d := by
  obtain ⟨addrs, hr⟩ := hInv
  refine ⟨hr.len_nonneg, ?_, ?_⟩
  · intro h0
    obtain ⟨-, hlen1, hvals⟩ | ⟨hpos, -⟩ := hr.len
    swap; · omega
    obtain ⟨s, rfl⟩ := List.length_eq_one.mp hlen1
    obtain ⟨nd, hget, -, -⟩ := chainSeg_singleton.mp hr.chain
    refine ⟨s, by simpa using hr.hd, by simpa using hr.tl, nd, hget, ?_⟩
    have := hvals s (by simp)
    simpa [nodeVal, hget] using this
  · intro h2
    obtain ⟨h0, -⟩ | ⟨hpos, hlen⟩ := hr.len
    · omega
    exact ⟨addrs, hlen.symm, hr.hd, hr.tl, hr.chain⟩

/-! ### Index bookkeeping for `insertIdx`/`eraseIdx` -/

theorem getElem?_insertIdx_self {β : Type} (l : List β) (i : Nat) (v : β)
    (h : i ≤ l.length) : (l.insertIdx i v)[i]? = some v := by
  induction l generalizing i with
  | nil =>
    simp only [List.length_nil, Nat.le_zero] at h
    subst h; rfl
  | cons a rest ih =>
    cases i with
    | zero => rfl
    | succ i =>
      rw [List.insertIdx_succ_cons]
      simpa using ih i (by simpa using h)

theorem getElem?_insertIdx_succ {β : Type} (l : List β) (i : Nat) (v : β) :
    (l.insertIdx i v)[i + 1]? = l[i]? := by
  induction l generalizing i with
  | nil => cases i <;> rfl
  | cons a rest ih =>
    cases i with
    | zero => simp [List.insertIdx_zero]
    | succ i =>
      rw [List.insertIdx_succ_cons]
      simpa using ih i

theorem insertIdx_eraseIdx_self {β : Type} (l : List β) (i : Nat) (v : β)
    (h : l[i]? = some v) : (l.eraseIdx i).insertIdx i v = l := by
  induction l generalizing i with
  | nil => simp at h
  | cons a rest ih =>
    cases i with
    | zero =>
      simp only [List.getElem?_cons_zero, Option.some.injEq] at h
      simp [List.eraseIdx_zero, List.insertIdx_zero, h]
    | succ i =>
      simp only [List.eraseIdx_cons_succ, List.insertIdx_succ_cons]
      rw [ih i (by simpa using h)]

/-! ### Concrete sample states (used by the closed instances below) -/

/-- The heap and deque produced by `new Deque([1, 2])` in a fresh heap. -/
def heap2 : Heap Nat := ⟨[⟨some 1, none, some 1⟩, ⟨some 2, some 0, none⟩]⟩

def deque2 : Deque := ⟨some 0, some 1, 2⟩

theorem rep2 : Rep heap2 deque2 [some 1, some 2] :=
  dequeOfList_ok (show dequeOfList (⟨[]⟩ : Heap Nat) [some 1, some 2]
    = .ok (heap2, deque2) by rfl)

/-- The heap and deque produced by `new Deque([1, 2, 3])` in a fresh heap. -/
def heap3 : Heap Nat :=
  ⟨[⟨some 1, none, some 1⟩, ⟨some 2, some 0, some 2⟩, ⟨some 3, some 1, none⟩]⟩

def deque3 : Deque := ⟨some 0, some 2, 3⟩

theorem rep3 : Rep heap3 deque3 [some 1, some 2, some 3] :=
  dequeOfList_ok (show dequeOfList (⟨[]⟩ : Heap Nat) [some 1, some 2, some 3]
    = .ok (heap3, deque3) by rfl)

/-- The heap and deque produced by `new Deque()` in a fresh heap. -/
def heap0 : Heap Nat := ⟨[⟨none, none, none⟩]⟩

def deque0 : Deque := ⟨some 0, some 0, 0⟩

theorem rep0 : Rep heap0 deque0 [] :=
  dequeOfList_ok (show dequeOfList (⟨[]⟩ : Heap Nat) []
    = .ok (heap0, deque0) by rfl)

/-! ## The claims -/

/-- C4: for every well-formed deque (including the empty deque, on which
rotation is a defined no-op that does not fail) and every integer `k`,
`rotate(k)` followed by `rotate(-k)` restores the original element order
(`toArray` is unchanged); neither call signals an error. -/
theorem rotate_then_rotate_neg_restores {α : Type} {h : Heap α} {d : Deque}
    (hInv : Inv h d) (k : Int) :
    ∃ h1 d1 h2 d2, rotate h d k = .ok (h1, d1) ∧
      rotate h1 d1 (-k) = .ok (h2, d2) ∧
      toArray h2 d2 = toArray h d := by
  obtain ⟨addrs, hr⟩ := hInv
  exact rotate_roundtrip hr k

/-- Closed instance of C4 at the deque `[1, 2]` with `k = 3`
(`k` exceeding the length). -/
theorem rotate_then_rotate_neg_restores_witness :
    Inv heap2 deque2 ∧
    ∃ h1 d1 h2 d2, rotate heap2 deque2 3 = .ok (h1, d1) ∧
      rotate h1 d1 (-3) = .ok (h2, d2) ∧
      toArray h2 d2 = toArray heap2 deque2 :=
  ⟨rep2.inv, rotate_then_rotate_neg_restores rep2.inv 3⟩

/-- C5: for every length `n ≥ 1` and every integer `steps`,
`optimizeSteps(steps)` returns an integer congruent to `steps` modulo `n`
whose absolute value is at most `n / 2`, so the rotation loop of
`rotate(steps)` performs at most `n / 2` single-element pop/push moves. -/
theorem optimizeSteps_congruent_and_bounded (s n : Int) (hn : 1 ≤ n) :
    optimizeSteps s n % n = s % n ∧ 2 * |optimizeSteps s n| ≤ n ∧
      ((optimizeSteps s n).natAbs : Int) ≤ n / 2 := by
  obtain ⟨h1, h2⟩ := optimizeSteps_spec hn
  refine ⟨h1, h2, ?_⟩
  rw [Int.abs_eq_natAbs] at h2
  omega

/-- Closed instance of C5 at `steps = 7`, `n = 5`. -/
theorem optimizeSteps_congruent_and_bounded_witness :
    (1 : Int) ≤ 5 ∧
    (optimizeSteps 7 5 % 5 = 7 % 5 ∧ 2 * |optimizeSteps 7 5| ≤ 5 ∧
      ((optimizeSteps 7 5).natAbs : Int) ≤ 5 / 2) :=
  ⟨by decide, optimizeSteps_congruent_and_bounded 7 5 (by decide)⟩

/-- C7: for every well-formed deque representing the element list `l`,
`reverse()` makes `toArray()` produce `l.reverse` (so a second `reverse()`
restores `l`), the length is unchanged, and on deques of length 0 or 1 the
observable state (`toArray`) is unchanged. -/
theorem reverse_reverses_and_involutive {α : Type} {h : Heap α} {d : Deque}
    {l : List (Option α)} (hRep : Rep h d l) :
    ∃ h1 d1 h2 d2, reverse h d = .ok (h1, d1) ∧
      toArray h1 d1 = .ok l.reverse ∧ d1._length = d._length ∧
      reverse h1 d1 = .ok (h2, d2) ∧ toArray h2 d2 = .ok l ∧
      (d._length ≤ 1 → toArray h1 d1 = toArray h d) := by
  obtain ⟨addrs, hr, habs⟩ := hRep
  obtain ⟨h1, d1, heq1, hr1, habs1, -⟩ := reverse_spec hr
  obtain ⟨h2, d2, heq2, hr2, habs2, -⟩ := reverse_spec hr1
  have hlen1 : d1._length = d._length := by
    have e1 := absL_length hr
    have e2 := absL_length hr1
    rw [habs1] at e2
    simp at e2
    omega
  refine ⟨h1, d1, h2, d2, heq1, ?_, hlen1, heq2, ?_, ?_⟩
  · rw [toArray_spec hr1, habs1, habs]
  · rw [toArray_spec hr2, habs2, habs1, List.reverse_reverse, habs]
  · intro hle
    have hlen : l.length ≤ 1 := by
      have := absL_length hr
      rw [← habs] at this
      omega
    have hrev : l.reverse = l := by
      cases l with
      | nil => rfl
      | cons a rest =>
        cases rest with
        | nil => rfl
        | cons b t => simp at hlen
    rw [toArray_spec hr1, toArray_spec hr, habs1, ← habs, hrev]

/-- Closed instance of C7 at the deque `[1, 2, 3]`. -/
theorem reverse_reverses_and_involutive_witness :
    Rep heap3 deque3 [some 1, some 2, some 3] ∧
    ∃ h1 d1 h2 d2, reverse heap3 deque3 = .ok (h1, d1) ∧
      toArray h1 d1 = .ok [some 1, some 2, some 3].reverse ∧
      d1._length = deque3._length ∧
      reverse h1 d1 = .ok (h2, d2) ∧
      toArray h2 d2 = .ok [some 1, some 2, some 3] ∧
      (deque3._length ≤ 1 → toArray h1 d1 = toArray heap3 deque3) :=
  ⟨rep3, reverse_reverses_and_involutive rep3⟩

/-- C10: for every well-formed deque and every index in `[0, length)`,
`insertAt(v, index)` succeeds and returns `true`: the trailing
`return false` branch is unreachable under the in-range precondition. -/
theorem insertAt_returns_true_in_range {α : Type} {h : Heap α} {d : Deque}
    (hInv : Inv h d) (v : Option α) {i : Int} (h0 : 0 ≤ i)
    (hi : i < d._length) :
    ∃ h' d', insertAt h d v i = .ok (true, h', d') := by
  obtain ⟨addrs, hr⟩ := hInv
  obtain ⟨h', d', addrs', heq, -, -, -⟩ := insertAt_spec hr v h0 hi
  exact ⟨h', d', heq⟩

/-- Closed instance of C10 at the deque `[1, 2]`, value `9`, index `1`. -/
theorem insertAt_returns_true_in_range_witness :
    Inv heap2 deque2 ∧ (0 : Int) ≤ 1 ∧ (1 : Int) < deque2._length ∧
    ∃ h' d', insertAt heap2 deque2 (some 9) 1 = .ok (true, h', d') :=
  ⟨rep2.inv, by decide, by decide,
    insertAt_returns_true_in_range rep2.inv (some 9) (by decide) (by decide)⟩

/-- C6: for every well-formed deque and every index in `[0, length)`, after
`insertAt(v, index)` succeeds, `at(index)` returns `v`, the element
previously at `index` is now at `index + 1` (`at` on the new state at
`index + 1` agrees with `at` on the old state at `index`), and the length
has increased by one. -/
theorem insertAt_at_shift_length {α : Type} {h : Heap α} {d : Deque}
    (hInv : Inv h d) (v : Option α) {i : Int} (h0 : 0 ≤ i)
    (hi : i < d._length) :
    ∃ h' d', insertAt h d v i = .ok (true, h', d') ∧
      «at» h' d' i = .ok v ∧
      «at» h' d' (i + 1) = «at» h d i ∧
      d'._length = d._length + 1 := by
  obtain ⟨addrs, hr⟩ := hInv
  obtain ⟨h', d', addrs', heq, hr', habs', hfp⟩ := insertAt_spec hr v h0 hi
  have e1 := absL_length hr
  have e2 := absL_length hr'
  have hitoNat : i.toNat < (absL h d addrs).length := by omega
  have hlen' : d'._length = d._length + 1 := by
    rw [habs', List.length_insertIdx _ _ (le_of_lt hitoNat)] at e2
    omega
  obtain ⟨v1, hat1, hget1⟩ := at_spec hr' h0 (by omega)
  have hv1 : v1 = v := by
    rw [habs', getElem?_insertIdx_self _ _ _ (by omega)] at hget1
    injection hget1 with he
    exact he.symm
  obtain ⟨v2, hat2, hget2⟩ := at_spec hr' (show (0:Int) ≤ i + 1 by omega)
    (show i + 1 < d'._length by omega)
  obtain ⟨v3, hat3, hget3⟩ := at_spec hr h0 hi
  have hv23 : v2 = v3 := by
    rw [habs', show (i + 1).toNat = i.toNat + 1 by omega,
      getElem?_insertIdx_succ] at hget2
    rw [hget2] at hget3
    exact Option.some.inj hget3
  refine ⟨h', d', heq, ?_, ?_, hlen'⟩
  · rw [hat1, hv1]
  · rw [hat2, hat3, hv23]

/-- Closed instance of C6 at the deque `[1, 2]`, value `9`, index `1`. -/
theorem insertAt_at_shift_length_witness :
    Inv heap2 deque2 ∧ (0 : Int) ≤ 1 ∧ (1 : Int) < deque2._length ∧
    ∃ h' d', insertAt heap2 deque2 (some 9) 1 = .ok (true, h', d') ∧
      «at» h' d' 1 = .ok (some 9) ∧
      «at» h' d' (1 + 1) = «at» heap2 deque2 1 ∧
      d'._length = deque2._length + 1 :=
  ⟨rep2.inv, by decide, by decide,
    insertAt_at_shift_length rep2.inv (some 9) (by decide) (by decide)⟩

/-- C1 (counterexample): at `index = length - 1` the claimed round-trip
fails. On the deque `[1, 2]`, `removeAt(1)` returns `2` leaving `[1]`, and
`insertAt(2, 1)` then signals the range error (the new length is 1, and
`insertAt` does not support appending at `index == length`), so the original
sequence is not reconstructed. -/
theorem removeAt_insertAt_roundtrip_fails_at_last_index :
    removeAt heap2 deque2 1 =
      .ok (some 2, ⟨[⟨some 1, none, none⟩, ⟨some 2, some 0, none⟩]⟩,
        ⟨some 0, some 0, 1⟩) ∧
    insertAt (⟨[⟨some 1, none, none⟩, ⟨some 2, some 0, none⟩]⟩ : Heap Nat)
      ⟨some 0, some 0, 1⟩ (some 2) 1 = .error rangeErrorMsg :=
  ⟨rfl, rfl⟩

/-- C1 (amended): for every well-formed deque and every index in
`[0, length - 1)`, `removeAt(index)` followed by
`insertAt(removedValue, index)` reconstructs the original element sequence
(`toArray` is unchanged by the pair).  At `index = length - 1` the second
call signals a range error instead (see the counterexample). -/
theorem removeAt_insertAt_roundtrip_interior {α : Type} {h : Heap α}
    {d : Deque} (hInv : Inv h d) {i : Int} (h0 : 0 ≤ i)
    (hi : i < d._length - 1) :
    ∃ v h1 d1 b h2 d2, removeAt h d i = .ok (v, h1, d1) ∧
      insertAt h1 d1 v i = .ok (b, h2, d2) ∧
      toArray h2 d2 = toArray h d := by
  obtain ⟨addrs, hr⟩ := hInv
  obtain ⟨v, h1, d1, addrs1, heq1, hr1, hgetv, habs1, -⟩ :=
    removeAt_spec hr h0 (by omega)
  have e1 := absL_length hr
  have e2 := absL_length hr1
  have hitoNat : i.toNat < (absL h d addrs).length := by omega
  have hlen1 : d1._length = d._length - 1 := by
    rw [habs1, List.length_eraseIdx] at e2
    rw [if_pos hitoNat] at e2
    omega
  obtain ⟨h2, d2, addrs2, heq2, hr2, habs2, -⟩ :=
    insertAt_spec hr1 v h0 (by omega)
  refine ⟨v, h1, d1, true, h2, d2, heq1, heq2, ?_⟩
  rw [toArray_spec hr2, toArray_spec hr, habs2, habs1,
    insertIdx_eraseIdx_self _ _ _ hgetv]

/-- Closed instance of amended C1 at the deque `[1, 2]`, index `0`. -/
theorem removeAt_insertAt_roundtrip_interior_witness :
    Inv heap2 deque2 ∧ (0 : Int) ≤ 0 ∧ (0 : Int) < deque2._length - 1 ∧
    ∃ v h1 d1 b h2 d2, removeAt heap2 deque2 0 = .ok (v, h1, d1) ∧
      insertAt h1 d1 v 0 = .ok (b, h2, d2) ∧
      toArray h2 d2 = toArray heap2 deque2 :=
  ⟨rep2.inv, by decide, by decide,
    removeAt_insertAt_roundtrip_interior rep2.inv (by decide) (by decide)⟩

/-- C3: the strict error policy is uniform on every well-formed deque:
`at`, `insertAt` and `removeAt` signal the range error exactly when
`index < 0` or `index ≥ length` (and succeed on every in-range index),
while `pop`, `popleft`, `getHead` and `getTail` on an empty deque return
the absent value `null` rather than signaling. -/
theorem strict_error_policy {α : Type} {h : Heap α} {d : Deque}
    (hInv : Inv h d) :
    (∀ i : Int, i < 0 ∨ d._length ≤ i →
      «at» h d i = .error rangeErrorMsg ∧
      (∀ v : Option α, insertAt h d v i = .error rangeErrorMsg) ∧
      removeAt h d i = .error rangeErrorMsg) ∧
    (∀ i : Int, 0 ≤ i → i < d._length →
      (∃ v, «at» h d i = .ok v) ∧
      (∀ v : Option α, ∃ h' d', insertAt h d v i = .ok (true, h', d')) ∧
      (∃ v h' d', removeAt h d i = .ok (v, h', d'))) ∧
    (d._length = 0 →
      pop h d = .ok (none, h, d) ∧ popleft h d = .ok (none, h, d) ∧
      getHead h d = .ok none ∧ getTail h d = .ok none) := by
  obtain ⟨addrs, hr⟩ := hInv
  refine ⟨?_, ?_, ?_⟩
  · intro i hout
    exact ⟨at_out_of_range (by omega),
      fun v => insertAt_out_of_range v (by omega),
      removeAt_out_of_range (by omega)⟩
  · intro i h0 hi
    refine ⟨?_, ?_, ?_⟩
    · obtain ⟨v, hat, -⟩ := at_spec hr h0 hi
      exact ⟨v, hat⟩
    · intro v
      obtain ⟨h', d', addrs', heq, -, -, -⟩ := insertAt_spec hr v h0 hi
      exact ⟨h', d', heq⟩
    · obtain ⟨v, h', d', addrs', heq, -, -, -, -⟩ := removeAt_spec hr h0 hi
      exact ⟨v, h', d', heq⟩
  · intro h0
    exact ⟨pop_empty h0, popleft_empty h0, getHead_empty hr h0,
      getTail_empty hr h0⟩

/-- Closed instance of C3 at the deque `[1, 2]`. -/
theorem strict_error_policy_witness :
    Inv heap2 deque2 ∧
    ((∀ i : Int, i < 0 ∨ deque2._length ≤ i →
      «at» heap2 deque2 i = .error rangeErrorMsg ∧
      (∀ v : Option Nat, insertAt heap2 deque2 v i = .error rangeErrorMsg) ∧
      removeAt heap2 deque2 i = .error rangeErrorMsg) ∧
    (∀ i : Int, 0 ≤ i → i < deque2._length →
      (∃ v, «at» heap2 deque2 i = .ok v) ∧
      (∀ v : Option Nat, ∃ h' d', insertAt heap2 deque2 v i = .ok (true, h', d')) ∧
      (∃ v h' d', removeAt heap2 deque2 i = .ok (v, h', d'))) ∧
    (deque2._length = 0 →
      pop heap2 deque2 = .ok (none, heap2, deque2) ∧
      popleft heap2 deque2 = .ok (none, heap2, deque2) ∧
      getHead heap2 deque2 = .ok none ∧ getTail heap2 deque2 = .ok none)) :=
  ⟨rep2.inv, strict_error_policy rep2.inv⟩

/-- C2 (execution at the failing input): iterating the freshly constructed
EMPTY deque yields one spurious element (the sentinel's `null` value) before
reporting completion, instead of completing immediately with no elements:
inside the iterator's `next`, `this` is the iterator object, so the
`this._length === 0` guard compares `undefined === 0` and never fires.  On a
non-empty deque the iterator does yield exactly the elements from head to
tail in order. -/
theorem iterate_empty_deque_yields_spurious_null :
    iterate heap0 deque0 = [none] ∧
    iterate heap3 deque3 = [some 1, some 2, some 3] :=
  ⟨rfl, rfl⟩

/-- C8: for every well-formed deque, `copy()` returns a new deque with
identical `toArray()` output whose node addresses are disjoint from the
original's (no node is shared), and any subsequent state-changing operation
applied to the copy leaves the original's observable state (its `toArray`;
its `length` field is untouched by construction) unchanged. -/
theorem copy_independent {α : Type} {h : Heap α} {d : Deque}
    (hInv : Inv h d) :
    ∃ h' d2, copy h d = .ok (h', d2) ∧
      toArray h' d2 = toArray h d ∧
      (∃ addrs addrs2, ReprA h' d addrs ∧ ReprA h' d2 addrs2 ∧
        ∀ a ∈ addrs, a ∉ addrs2) ∧
      (∀ (m : Mutation α) (h'' : Heap α) (d2' : Deque),
        applyMutation m h' d2 = .ok (h'', d2') →
        toArray h'' d = toArray h d) := by
  obtain ⟨addrs, hr⟩ := hInv
  obtain ⟨h', d2, addrs2, heq, hr2, habs2, hrOrig, habsOrig, hfresh, hext⟩ :=
    copy_spec hr
  have hdisj : ∀ a ∈ addrs, a ∉ addrs2 := by
    intro a ha hmem
    have h1 := hr.valid a ha
    have h2 := hfresh a hmem
    omega
  refine ⟨h', d2, heq, ?_, ⟨addrs, addrs2, hrOrig, hr2, hdisj⟩, ?_⟩
  · rw [toArray_spec hr2, toArray_spec hr, habs2]
  · intro m h'' d2' hmut
    obtain ⟨addrs2', hr2', hfp⟩ := applyMutation_spec hr2 m hmut
    have hagOrig : ∀ a ∈ addrs, h''.get? a = h'.get? a := fun a ha =>
      hfp.frame a (hdisj a ha) (lt_of_lt_of_le (hr.valid a ha) hext)
    have hrOrig'' : ReprA h'' d addrs := hrOrig.mono hagOrig
    rw [toArray_spec hrOrig'', toArray_spec hr, absL_mono hagOrig, habsOrig]

/-- Closed instance of C8 at the deque `[1, 2]`. -/
theorem copy_independent_witness :
    Inv heap2 deque2 ∧
    ∃ h' d2, copy heap2 deque2 = .ok (h', d2) ∧
      toArray h' d2 = toArray heap2 deque2 ∧
      (∃ addrs addrs2, ReprA h' deque2 addrs ∧ ReprA h' d2 addrs2 ∧
        ∀ a ∈ addrs, a ∉ addrs2) ∧
      (∀ (m : Mutation Nat) (h'' : Heap Nat) (d2' : Deque),
        applyMutation m h' d2 = .ok (h'', d2') →
        toArray h'' deque2 = toArray heap2 deque2) :=
  ⟨rep2.inv, copy_independent rep2.inv⟩

/-- C9: on every well-formed deque, every state-changing operation that
completes preserves the structural invariants (`length` never negative;
empty deque: `head` and `tail` are one sentinel node holding no value;
`length ≥ 2`: `head.prev` and `tail.next` absent and the `next`/`prev`
chain from `head` to `tail` visits exactly `length` nodes in both
directions), and `copy` additionally establishes them for the new deque
while preserving them for the original. -/
theorem operations_preserve_invariants {α : Type} {h : Heap α} {d : Deque}
    (hInv : Inv h d) :
    (∀ (m : Mutation α) (h' : Heap α) (d' : Deque),
      applyMutation m h d = .ok (h', d') → Inv h' d' ∧ StructInv h' d') ∧
    (∀ (h' : Heap α) (d2 : Deque), copy h d = .ok (h', d2) →
      (Inv h' d2 ∧ StructInv h' d2) ∧ (Inv h' d ∧ StructInv h' d)) := by
  obtain ⟨addrs, hr⟩ := hInv
  constructor
  · intro m h' d' heq
    obtain ⟨addrs', hr', -⟩ := applyMutation_spec hr m heq
    exact ⟨⟨addrs', hr'⟩, Inv.structInv ⟨addrs', hr'⟩⟩
  · intro h' d2 heq
    obtain ⟨h2, d3, addrs2, heq2, hr2, -, hrOrig, -, -, -⟩ := copy_spec hr
    rw [heq] at heq2
    injection heq2 with hpair
    obtain ⟨rfl, rfl⟩ := Prod.mk.injEq .. ▸ Prod.ext_iff.mp hpair
    exact ⟨⟨⟨addrs2, hr2⟩, Inv.structInv ⟨addrs2, hr2⟩⟩,
      ⟨⟨addrs, hrOrig⟩, Inv.structInv ⟨addrs, hrOrig⟩⟩⟩

/-- Closed instance of C9 at the deque `[1, 2]`. -/
theorem operations_preserve_invariants_witness :
    Inv heap2 deque2 ∧
    ((∀ (m : Mutation Nat) (h' : Heap Nat) (d' : Deque),
      applyMutation m heap2 deque2 = .ok (h', d') →
        Inv h' d' ∧ StructInv h' d') ∧
    (∀ (h' : Heap Nat) (d2 : Deque), copy heap2 deque2 = .ok (h', d2) →
      (Inv h' d2 ∧ StructInv h' d2) ∧ (Inv h' deque2 ∧ StructInv h' deque2))) :=
  ⟨rep2.inv, operations_preserve_invariants rep2.inv⟩

end LinkedDeque
